import Mathlib

/-!
Verification of the clindoc-app-backend core pipeline: template rendering,
RAG chunking/ingestion/retrieval, language resolution, and QC rules.

Each Python function of the core is embedded as an executable Lean
definition; language fields that may be `None` or empty in Python are
modelled as `Option String` with Python truthiness made explicit.
-/

namespace Clindoc

/-! ## Language resolver (src/app/services/language_resolver.py) -/

/-- In-memory `Document` as seen by `resolve_content_language`: only the
`language` attribute matters; `none` models a Python `None` value. -/
structure Document where
  language : Option String
deriving Repr, DecidableEq

/-- In-memory `User`: only the `ui_language` attribute matters. -/
structure User where
  ui_language : Option String
deriving Repr, DecidableEq

/-- Python truthiness of an optional string: `None` and `""` are falsy. -/
def truthy : Option String → Bool
  | none => false
  | some s => s ≠ ""

/-- Membership test `x in ("ru", "en")`. -/
def isRuEn (s : String) : Bool := s = "ru" || s = "en"

/-- Guard of the document tier: `document is not None and document.language`
followed by `document.language in ("ru", "en")`. -/
def docLangOk (document : Option Document) : Bool :=
  match document with
  | some d => truthy d.language && isRuEn (d.language.getD "")
  | none => false

/-- Guard of the user tier: `user is not None and user.ui_language` followed
by `user.ui_language in ("ru", "en")`. -/
def userLangOk (user : Option User) : Bool :=
  match user with
  | some u => truthy u.ui_language && isRuEn (u.ui_language.getD "")
  | none => false

/-- Embedding of `resolve_content_language(document, user, request_language)`:
the early-return ladder of the Python function flattened into nested ifs. -/
def resolve_content_language (document : Option Document) (user : Option User)
    (request_language : String) : String :=
  if docLangOk document then (document.bind (·.language)).getD ""
  else if userLangOk user then (user.bind (·.ui_language)).getD ""
  else if isRuEn request_language then request_language
  else "en"

/-- The document tier guard exactly as the spec words it: the document exists
and its language field is set and lies in `{ru, en}`. -/
def specDocOk (document : Option Document) : Bool :=
  match document.bind (·.language) with
  | some dl => isRuEn dl
  | none => false

/-- The user tier guard exactly as the spec words it. -/
def specUserOk (user : Option User) : Bool :=
  match user.bind (·.ui_language) with
  | some ul => isRuEn ul
  | none => false

/-- The precedence chain exactly as the spec words it: document language if
set and valid, else user UI language if set and valid, else the request
language if valid, else the hard-coded fallback `"en"`. -/
def contentLanguageSpec (document : Option Document) (user : Option User)
    (request_language : String) : String :=
  if specDocOk document then (document.bind (·.language)).getD ""
  else if specUserOk user then (user.bind (·.ui_language)).getD ""
  else if isRuEn request_language then request_language
  else "en"

theorem isRuEn_iff {s : String} : isRuEn s = true ↔ s = "ru" ∨ s = "en" := by
  simp [isRuEn]

theorem docLangOk_eq_spec (document : Option Document) :
    docLangOk document = specDocOk document := by
  rcases document with _ | ⟨_ | s⟩
  · rfl
  · rfl
  · show (truthy (some s) && isRuEn s) = isRuEn s
    by_cases h : s = ""
    · subst h; decide
    · simp [truthy, h]

theorem userLangOk_eq_spec (user : Option User) :
    userLangOk user = specUserOk user := by
  rcases user with _ | ⟨_ | s⟩
  · rfl
  · rfl
  · show (truthy (some s) && isRuEn s) = isRuEn s
    by_cases h : s = ""
    · subst h; decide
    · simp [truthy, h]

end Clindoc

namespace Clindoc

/-- C4: `resolve_content_language` follows the document → user → request →
`"en"` precedence chain of the spec, skipping each tier whose value is
missing or not in `{ru, en}`; its result is always `"ru"` or `"en"`; and the
three spec examples evaluate as stated. -/
theorem resolve_content_language_precedence :
    (∀ (document : Option Document) (user : Option User) (request_language : String),
      resolve_content_language document user request_language
        = contentLanguageSpec document user request_language
      ∧ (resolve_content_language document user request_language = "ru"
          ∨ resolve_content_language document user request_language = "en"))
    ∧ resolve_content_language (some ⟨some "en"⟩) (some ⟨some "ru"⟩) "ru" = "en"
    ∧ resolve_content_language none (some ⟨some "ru"⟩) "en" = "ru"
    ∧ resolve_content_language none none "en" = "en" := by
  refine ⟨fun document user request_language => ⟨?_, ?_⟩, by decide, by decide, by decide⟩
  · unfold resolve_content_language contentLanguageSpec
    rw [docLangOk_eq_spec, userLangOk_eq_spec]
  · unfold resolve_content_language
    by_cases hd : docLangOk document = true
    · have hs : isRuEn ((document.bind (·.language)).getD "") = true := by
        rcases document with _ | ⟨_ | s⟩
        · exact absurd hd (by decide)
        · exact absurd hd (by decide)
        · have h' : (truthy (some s) && isRuEn s) = true := hd
          have h2 : truthy (some s) = true ∧ isRuEn s = true := by simpa using h'
          simpa using h2.2
      rw [if_pos hd]
      exact isRuEn_iff.mp hs
    · rw [if_neg (by simpa using hd)]
      by_cases hu : userLangOk user = true
      · have hs : isRuEn ((user.bind (·.ui_language)).getD "") = true := by
          rcases user with _ | ⟨_ | s⟩
          · exact absurd hu (by decide)
          · exact absurd hu (by decide)
          · have h' : (truthy (some s) && isRuEn s) = true := hu
            have h2 : truthy (some s) = true ∧ isRuEn s = true := by simpa using h'
            simpa using h2.2
        rw [if_pos hu]
        exact isRuEn_iff.mp hs
      · rw [if_neg (by simpa using hu)]
        by_cases hr : isRuEn request_language = true
        · rw [if_pos hr]; exact isRuEn_iff.mp hr
        · rw [if_neg (by simpa using hr)]; right; rfl

end Clindoc

namespace Clindoc

/-! ## Template renderer (src/app/services/template_renderer.py)

`render_template_string` substitutes `\x7b\x7bvar\x7d\x7d` placeholders via
`re.sub` with pattern `\\\x7b\\\x7b([a-zA-Z0-9_]+)\\\x7d\\\x7d`.  A context
value is `Option String`: `none` models Python `None`, `some s` a value whose
`str()` is `s`. -/

def lbrace : Char := '\x7b'

def rbrace : Char := '\x7d'

/-- Characters matched by the regex class `[a-zA-Z0-9_]`. -/
def isWordChar (c : Char) : Bool :=
  ('a' ≤ c && c ≤ 'z') || ('A' ≤ c && c ≤ 'Z') || ('0' ≤ c && c ≤ '9') || c = '_'

/-- Attempt to match the placeholder regex at the head of `cs`: two opening
braces, a maximal non-empty `[a-zA-Z0-9_]+` run, two closing braces.  (The
regex engine cannot backtrack here: after the greedy run the next character
is not a word character, so shortening the run can never make `\x7d\x7d`
match.) -/
def tryMatchPh (cs : List Char) : Option (String × List Char) :=
  match cs with
  | c1 :: c2 :: rest =>
    if c1 = lbrace ∧ c2 = lbrace ∧ rest.takeWhile isWordChar ≠ [] ∧
        (rest.dropWhile isWordChar).take 2 = [rbrace, rbrace] then
      some (String.mk (rest.takeWhile isWordChar), (rest.dropWhile isWordChar).drop 2)
    else none
  | _ => none

/-- `var_name in context` / `context[var_name]` over the context mapping. -/
def lookupCtx (ctx : List (String × Option String)) (n : String) : Option (Option String) :=
  (ctx.find? (fun p => p.1 == n)).map (·.2)

/-- `"" if value is None else str(value)` (also the replacement text). -/
def strOfVal (v : Option String) : String := v.getD ""

/-- Python dict assignment `used_variables[var_name] = s`. -/
def updateUsed (u : List (String × String)) (n : String) (s : String) :
    List (String × String) :=
  if u.any (fun p => p.1 == n) then u.map (fun p => if p.1 == n then (n, s) else p)
  else u ++ [(n, s)]

/-- `if var_name not in missing_variables: missing_variables.append(var_name)`. -/
def addMissing (m : List String) (n : String) : List String :=
  if n ∈ m then m else m ++ [n]

/-- One `re.sub` scan step at a time, with fuel bounding the number of scan
positions (fuel `≥` length of the remaining text suffices). -/
def renderFuel (ctx : List (String × Option String)) :
    Nat → List Char → List (String × String) → List String →
    List Char × List (String × String) × List String
  | 0, cs, u, m => (cs, u, m)
  | Nat.succ fuel, cs, u, m =>
    match cs with
    | [] => ([], u, m)
    | c :: rest =>
      match tryMatchPh (c :: rest) with
      | some (n, rest2) =>
        match lookupCtx ctx n with
        | some v =>
          let r := renderFuel ctx fuel rest2 (updateUsed u n (strOfVal v)) m
          ((strOfVal v).data ++ r.1, r.2)
        | none =>
          let r := renderFuel ctx fuel rest2 u (addMissing m n)
          (lbrace :: lbrace :: (n.data ++ rbrace :: rbrace :: r.1), r.2)
      | none =>
        let r := renderFuel ctx fuel rest u m
        (c :: r.1, r.2)

/-- Embedding of `render_template_string(template_text, context)`. -/
def render_template_string (template_text : String) (ctx : List (String × Option String)) :
    String × List (String × String) × List String :=
  let r := renderFuel ctx template_text.data.length template_text.data [] []
  (String.mk r.1, r.2.1, r.2.2)

/-- A template decomposes into literal characters and placeholders. -/
inductive Tok where
  | lit : Char → Tok
  | ph : String → Tok
deriving Repr, DecidableEq

/-- The scan of `re.sub` as a pure tokenizer (fuel as in `renderFuel`). -/
def tokenizeFuel : Nat → List Char → List Tok
  | 0, _ => []
  | Nat.succ fuel, cs =>
    match cs with
    | [] => []
    | c :: rest =>
      match tryMatchPh (c :: rest) with
      | some (n, rest2) => Tok.ph n :: tokenizeFuel fuel rest2
      | none => Tok.lit c :: tokenizeFuel fuel rest

def tokenize (cs : List Char) : List Tok := tokenizeFuel cs.length cs

/-- The raw text a token stands for in the template. -/
def rawTok : Tok → List Char
  | .lit c => [c]
  | .ph n => lbrace :: lbrace :: (n.data ++ [rbrace, rbrace])

/-- What the spec says a placeholder or literal becomes in the output:
substitute the string representation of the context value (`None` becoming
the empty string), or leave the placeholder text completely unchanged. -/
def substTok (ctx : List (String × Option String)) : Tok → List Char
  | .lit c => [c]
  | .ph n =>
    match lookupCtx ctx n with
    | some v => (strOfVal v).data
    | none => lbrace :: lbrace :: (n.data ++ [rbrace, rbrace])

/-- Spec-level accumulation of `used_variables` over one token. -/
def usedStep (ctx : List (String × Option String)) (u : List (String × String)) :
    Tok → List (String × String)
  | .lit _ => u
  | .ph n =>
    match lookupCtx ctx n with
    | some v => updateUsed u n (strOfVal v)
    | none => u

/-- Spec-level accumulation of `missing_variables` over one token: a
placeholder identifier that is not a context key is recorded once, in order
of first occurrence. -/
def missStep (ctx : List (String × Option String)) (m : List String) :
    Tok → List String
  | .lit _ => m
  | .ph n =>
    match lookupCtx ctx n with
    | some _ => m
    | none => addMissing m n

/-- Spec-level rendered output. -/
def renderedSpec (ctx : List (String × Option String)) (cs : List Char) : List Char :=
  ((tokenize cs).map (substTok ctx)).flatten

/-- Spec-level `used_variables`. -/
def usedSpec (ctx : List (String × Option String)) (cs : List Char) :
    List (String × String) :=
  (tokenize cs).foldl (usedStep ctx) []

/-- Spec-level `missing_variables`. -/
def missingSpec (ctx : List (String × Option String)) (cs : List Char) : List String :=
  (tokenize cs).foldl (missStep ctx) []

theorem tryMatchPh_some {cs : List Char} {n : String} {rest2 : List Char}
    (h : tryMatchPh cs = some (n, rest2)) :
    cs = lbrace :: lbrace :: (n.data ++ rbrace :: rbrace :: rest2) := by
  rcases cs with _ | ⟨c1, _ | ⟨c2, rest⟩⟩
  · simp [tryMatchPh] at h
  · simp [tryMatchPh] at h
  · have h' : (if c1 = lbrace ∧ c2 = lbrace ∧ rest.takeWhile isWordChar ≠ [] ∧
          (rest.dropWhile isWordChar).take 2 = [rbrace, rbrace] then
        some (String.mk (rest.takeWhile isWordChar), (rest.dropWhile isWordChar).drop 2)
      else none) = some (n, rest2) := h
    by_cases hc : c1 = lbrace ∧ c2 = lbrace ∧ rest.takeWhile isWordChar ≠ [] ∧
        (rest.dropWhile isWordChar).take 2 = [rbrace, rbrace]
    · rw [if_pos hc] at h'
      have hn : String.mk (rest.takeWhile isWordChar) = n
          ∧ (rest.dropWhile isWordChar).drop 2 = rest2 := by
        simpa using h'
      have hdata : n.data = rest.takeWhile isWordChar := by rw [← hn.1]
      have hsplit : rest = rest.takeWhile isWordChar ++ rest.dropWhile isWordChar :=
        (List.takeWhile_append_dropWhile isWordChar rest).symm
      have hdw : rest.dropWhile isWordChar = rbrace :: rbrace :: rest2 := by
        have := List.take_append_drop 2 (rest.dropWhile isWordChar)
        rw [hc.2.2.2, hn.2] at this
        exact this.symm
      rw [hc.1, hc.2.1, hdata]
      conv_lhs => rw [hsplit]
      rw [hdw]
    · rw [if_neg hc] at h'; exact absurd h' (by simp)

theorem tryMatchPh_length {cs : List Char} {n : String} {rest2 : List Char}
    (h : tryMatchPh cs = some (n, rest2)) : rest2.length < cs.length := by
  have := congrArg List.length (tryMatchPh_some h)
  simp only [List.length_cons, List.length_append] at this
  omega

end Clindoc

namespace Clindoc

theorem tokenizeFuel_congr :
    ∀ (f g : Nat) (cs : List Char), cs.length ≤ f → cs.length ≤ g →
      tokenizeFuel f cs = tokenizeFuel g cs := by
  intro f
  induction f with
  | zero =>
    intro g cs hf _
    have : cs = [] := List.eq_nil_of_length_eq_zero (Nat.le_zero.mp hf)
    subst this
    cases g <;> rfl
  | succ f ih =>
    intro g cs hf hg
    cases cs with
    | nil => cases g <;> rfl
    | cons c rest =>
      cases g with
      | zero => simp at hg
      | succ g =>
        simp only [tokenizeFuel]
        cases hm : tryMatchPh (c :: rest) with
        | some pr =>
          obtain ⟨n, rest2⟩ := pr
          have hlt := tryMatchPh_length hm
          simp only [List.length_cons] at hf hg hlt
          exact congrArg (Tok.ph n :: ·) (ih g rest2 (by omega) (by omega))
        | none =>
          simp only [List.length_cons] at hf hg
          exact congrArg (Tok.lit c :: ·) (ih g rest (by omega) (by omega))

theorem tokenize_cons_some {c : Char} {rest : List Char} {n : String} {rest2 : List Char}
    (hm : tryMatchPh (c :: rest) = some (n, rest2)) :
    tokenize (c :: rest) = Tok.ph n :: tokenize rest2 := by
  have hlt := tryMatchPh_length hm
  simp only [List.length_cons] at hlt
  unfold tokenize
  simp only [List.length_cons, tokenizeFuel, hm]
  exact congrArg (Tok.ph n :: ·)
    (tokenizeFuel_congr rest.length rest2.length rest2 (by omega) (le_refl _))

theorem tokenize_cons_none {c : Char} {rest : List Char}
    (hm : tryMatchPh (c :: rest) = none) :
    tokenize (c :: rest) = Tok.lit c :: tokenize rest := by
  unfold tokenize
  simp only [List.length_cons, tokenizeFuel, hm]

theorem renderFuel_eq_spec (ctx : List (String × Option String)) :
    ∀ (f : Nat) (cs : List Char) (u : List (String × String)) (m : List String),
      cs.length ≤ f →
      renderFuel ctx f cs u m
        = (((tokenize cs).map (substTok ctx)).flatten,
           (tokenize cs).foldl (usedStep ctx) u,
           (tokenize cs).foldl (missStep ctx) m) := by
  intro f
  induction f with
  | zero =>
    intro cs u m hf
    have : cs = [] := List.eq_nil_of_length_eq_zero (Nat.le_zero.mp hf)
    subst this
    rfl
  | succ f ih =>
    intro cs u m hf
    cases cs with
    | nil => rfl
    | cons c rest =>
      simp only [List.length_cons] at hf
      cases hm : tryMatchPh (c :: rest) with
      | some pr =>
        obtain ⟨n, rest2⟩ := pr
        have hlt := tryMatchPh_length hm
        simp only [List.length_cons] at hlt
        rw [tokenize_cons_some hm]
        cases hl : lookupCtx ctx n with
        | some v =>
          simp only [renderFuel, hm, hl]
          rw [ih rest2 (updateUsed u n (strOfVal v)) m (by omega)]
          simp [substTok, usedStep, missStep, hl]
        | none =>
          simp only [renderFuel, hm, hl]
          rw [ih rest2 u (addMissing m n) (by omega)]
          simp [substTok, usedStep, missStep, hl]
      | none =>
        rw [tokenize_cons_none hm]
        simp only [renderFuel, hm]
        rw [ih rest u m (by omega)]
        simp [substTok, usedStep, missStep]

theorem tokenize_rawTok_flatten :
    ∀ (f : Nat) (cs : List Char), cs.length ≤ f →
      ((tokenizeFuel f cs).map rawTok).flatten = cs := by
  intro f
  induction f with
  | zero =>
    intro cs hf
    have : cs = [] := List.eq_nil_of_length_eq_zero (Nat.le_zero.mp hf)
    subst this
    rfl
  | succ f ih =>
    intro cs hf
    cases cs with
    | nil => rfl
    | cons c rest =>
      simp only [List.length_cons] at hf
      cases hm : tryMatchPh (c :: rest) with
      | some pr =>
        obtain ⟨n, rest2⟩ := pr
        have hlt := tryMatchPh_length hm
        simp only [List.length_cons] at hlt
        have hrec := tryMatchPh_some hm
        simp only [tokenizeFuel, hm, List.map_cons, List.flatten_cons]
        rw [ih rest2 (by omega), hrec]
        simp [rawTok]
      | none =>
        simp only [tokenizeFuel, hm, List.map_cons, List.flatten_cons]
        rw [ih rest (by omega)]
        rfl

end Clindoc

namespace Clindoc

theorem mem_addMissing {m : List String} {n k : String} :
    k ∈ addMissing m n ↔ k ∈ m ∨ k = n := by
  unfold addMissing
  by_cases h : n ∈ m
  · rw [if_pos h]
    constructor
    · exact Or.inl
    · rintro (hk | rfl)
      · exact hk
      · exact h
  · rw [if_neg h]
    simp

theorem nodup_addMissing {m : List String} (n : String) (h : m.Nodup) :
    (addMissing m n).Nodup := by
  unfold addMissing
  by_cases hn : n ∈ m
  · rw [if_pos hn]; exact h
  · rw [if_neg hn]
    rw [List.nodup_append]
    refine ⟨h, List.nodup_singleton n, ?_⟩
    intro a ha hb
    rw [List.mem_singleton] at hb
    subst hb
    exact hn ha

theorem nodup_foldl_missStep (ctx : List (String × Option String)) :
    ∀ (toks : List Tok) (m : List String), m.Nodup →
      (toks.foldl (missStep ctx) m).Nodup := by
  intro toks
  induction toks with
  | nil => exact fun m h => h
  | cons t toks ih =>
    intro m hm
    simp only [List.foldl_cons]
    apply ih
    cases t with
    | lit c => exact hm
    | ph n =>
      simp only [missStep]
      cases lookupCtx ctx n with
      | some v => exact hm
      | none => exact nodup_addMissing n hm

theorem mem_foldl_missStep (ctx : List (String × Option String)) :
    ∀ (toks : List Tok) (m : List String) (k : String),
      k ∈ toks.foldl (missStep ctx) m
        ↔ k ∈ m ∨ (Tok.ph k ∈ toks ∧ lookupCtx ctx k = none) := by
  intro toks
  induction toks with
  | nil => simp
  | cons t toks ih =>
    intro m k
    simp only [List.foldl_cons, ih, List.mem_cons]
    cases t with
    | lit c =>
      simp only [missStep]
      constructor
      · rintro (hk | hk)
        · exact Or.inl hk
        · exact Or.inr ⟨Or.inr hk.1, hk.2⟩
      · rintro (hk | ⟨(hk1 | hk1), hk2⟩)
        · exact Or.inl hk
        · cases hk1
        · exact Or.inr ⟨hk1, hk2⟩
    | ph n =>
      simp only [missStep]
      cases hl : lookupCtx ctx n with
      | some v =>
        constructor
        · rintro (hk | hk)
          · exact Or.inl hk
          · exact Or.inr ⟨Or.inr hk.1, hk.2⟩
        · rintro (hk | ⟨(hk1 | hk1), hk2⟩)
          · exact Or.inl hk
          · rw [Tok.ph.injEq] at hk1
            rw [hk1] at hk2
            rw [hl] at hk2
            cases hk2
          · exact Or.inr ⟨hk1, hk2⟩
      | none =>
        rw [mem_addMissing]
        constructor
        · rintro ((hk | rfl) | hk)
          · exact Or.inl hk
          · exact Or.inr ⟨Or.inl rfl, hl⟩
          · exact Or.inr ⟨Or.inr hk.1, hk.2⟩
        · rintro (hk | ⟨(hk1 | hk1), hk2⟩)
          · exact Or.inl (Or.inl hk)
          · rw [Tok.ph.injEq] at hk1
            exact Or.inl (Or.inr hk1)
          · exact Or.inr ⟨hk1, hk2⟩

theorem mem_updateUsed {u : List (String × String)} {n s : String} {p : String × String}
    (h : p ∈ updateUsed u n s) : p ∈ u ∨ p = (n, s) := by
  unfold updateUsed at h
  by_cases ha : u.any (fun q => q.1 == n)
  · rw [if_pos ha] at h
    obtain ⟨q, hq, hfq⟩ := List.mem_map.mp h
    by_cases hqn : q.1 == n
    · rw [if_pos hqn] at hfq
      exact Or.inr hfq.symm
    · rw [if_neg hqn] at hfq
      exact Or.inl (hfq ▸ hq)
  · rw [if_neg ha] at h
    rcases List.mem_append.mp h with hk | hk
    · exact Or.inl hk
    · exact Or.inr (List.mem_singleton.mp hk)

theorem used_foldl_sound (ctx : List (String × Option String)) :
    ∀ (toks : List Tok) (u : List (String × String)),
      (∀ p ∈ u, ∃ v, lookupCtx ctx p.1 = some v ∧ p.2 = strOfVal v) →
      ∀ p ∈ toks.foldl (usedStep ctx) u,
        ∃ v, lookupCtx ctx p.1 = some v ∧ p.2 = strOfVal v := by
  intro toks
  induction toks with
  | nil => exact fun u hu => hu
  | cons t toks ih =>
    intro u hu
    simp only [List.foldl_cons]
    apply ih
    cases t with
    | lit c => exact hu
    | ph n =>
      simp only [usedStep]
      cases hl : lookupCtx ctx n with
      | some v =>
        intro p hp
        rcases mem_updateUsed hp with hp | rfl
        · exact hu p hp
        · exact ⟨v, hl, rfl⟩
      | none => exact hu

theorem keys_updateUsed {u : List (String × String)} {n s k : String} :
    k ∈ (updateUsed u n s).map Prod.fst ↔ k ∈ u.map Prod.fst ∨ k = n := by
  unfold updateUsed
  by_cases ha : u.any (fun q => q.1 == n)
  · rw [if_pos ha]
    have hmap : (u.map (fun p => if p.1 == n then (n, s) else p)).map Prod.fst
        = u.map Prod.fst := by
      rw [List.map_map]
      apply List.map_congr_left
      intro p hp
      by_cases hpn : p.1 == n
      · have hp1 : p.1 = n := by simpa using hpn
        simp [Function.comp, if_pos hpn, hp1]
      · have hp1 : ¬p.1 = n := by simpa using hpn
        simp [Function.comp, hp1]
    rw [hmap]
    obtain ⟨q, hq, hqn⟩ := List.any_eq_true.mp ha
    have hn : n ∈ u.map Prod.fst :=
      List.mem_map.mpr ⟨q, hq, by simpa using hqn⟩
    constructor
    · exact Or.inl
    · rintro (hk | rfl)
      · exact hk
      · exact hn
  · rw [if_neg ha]
    simp

theorem keys_foldl_usedStep (ctx : List (String × Option String)) :
    ∀ (toks : List Tok) (u : List (String × String)) (k : String),
      k ∈ (toks.foldl (usedStep ctx) u).map Prod.fst
        ↔ k ∈ u.map Prod.fst ∨ (Tok.ph k ∈ toks ∧ lookupCtx ctx k ≠ none) := by
  intro toks
  induction toks with
  | nil => simp
  | cons t toks ih =>
    intro u k
    simp only [List.foldl_cons, ih, List.mem_cons]
    cases t with
    | lit c =>
      simp only [usedStep]
      constructor
      · rintro (hk | hk)
        · exact Or.inl hk
        · exact Or.inr ⟨Or.inr hk.1, hk.2⟩
      · rintro (hk | ⟨(hk1 | hk1), hk2⟩)
        · exact Or.inl hk
        · cases hk1
        · exact Or.inr ⟨hk1, hk2⟩
    | ph n =>
      simp only [usedStep]
      cases hl : lookupCtx ctx n with
      | none =>
        constructor
        · rintro (hk | hk)
          · exact Or.inl hk
          · exact Or.inr ⟨Or.inr hk.1, hk.2⟩
        · rintro (hk | ⟨(hk1 | hk1), hk2⟩)
          · exact Or.inl hk
          · rw [Tok.ph.injEq] at hk1
            rw [hk1, hl] at hk2
            cases hk2 rfl
          · exact Or.inr ⟨hk1, hk2⟩
      | some v =>
        rw [keys_updateUsed]
        constructor
        · rintro ((hk | rfl) | hk)
          · exact Or.inl hk
          · exact Or.inr ⟨Or.inl rfl, by rw [hl]; exact fun h => Option.noConfusion h⟩
          · exact Or.inr ⟨Or.inr hk.1, hk.2⟩
        · rintro (hk | ⟨(hk1 | hk1), hk2⟩)
          · exact Or.inl (Or.inl hk)
          · rw [Tok.ph.injEq] at hk1
            exact Or.inl (Or.inr hk1)
          · exact Or.inr ⟨hk1, hk2⟩

end Clindoc

namespace Clindoc

/-- C1: `render_template_string` substitutes every placeholder whose
identifier is a context key with the string representation of its value
(`None` rendering as the empty string) and records it in `used_variables`;
it leaves every placeholder whose identifier is not a context key unchanged
(the token decomposition reconstructs the template text exactly) while
recording that identifier exactly once (no duplicates) in
`missing_variables` in order of first occurrence; and the spec's concrete
example evaluates as stated. -/
theorem render_template_string_correct :
    (∀ (t : String) (ctx : List (String × Option String)),
      render_template_string t ctx
        = (String.mk (renderedSpec ctx t.data), usedSpec ctx t.data, missingSpec ctx t.data)
      ∧ ((tokenize t.data).map rawTok).flatten = t.data
      ∧ (missingSpec ctx t.data).Nodup
      ∧ (∀ k, k ∈ missingSpec ctx t.data
            ↔ Tok.ph k ∈ tokenize t.data ∧ lookupCtx ctx k = none)
      ∧ (∀ p ∈ usedSpec ctx t.data, ∃ v, lookupCtx ctx p.1 = some v ∧ p.2 = strOfVal v)
      ∧ (∀ k, k ∈ (usedSpec ctx t.data).map Prod.fst
            ↔ Tok.ph k ∈ tokenize t.data ∧ lookupCtx ctx k ≠ none))
    ∧ render_template_string "Hello \x7b\x7bname\x7d\x7d, id=\x7b\x7bxid\x7d\x7d"
        [("name", some "Ann")]
      = ("Hello Ann, id=\x7b\x7bxid\x7d\x7d", [("name", "Ann")], ["xid"]) := by
  constructor
  · intro t ctx
    refine ⟨?_, ?_, ?_, ?_, ?_, ?_⟩
    · simp only [render_template_string]
      rw [renderFuel_eq_spec ctx t.data.length t.data [] [] (le_refl _)]
      rfl
    · exact tokenize_rawTok_flatten t.data.length t.data (le_refl _)
    · exact nodup_foldl_missStep ctx (tokenize t.data) [] List.nodup_nil
    · intro k
      unfold missingSpec
      rw [mem_foldl_missStep]
      simp
    · intro p hp
      exact used_foldl_sound ctx (tokenize t.data) [] (by simp) p hp
    · intro k
      unfold usedSpec
      rw [keys_foldl_usedStep]
      simp
  · rfl

end Clindoc

namespace Clindoc

/-! ## Text chunker (src/app/services/rag_chunking.py)

Texts are `List Char`; Python `len` is `List.length`. -/

/-- Characters removed by Python `str.strip()` (ASCII whitespace). -/
def pyIsSpace (c : Char) : Bool :=
  c = ' ' || c = '\t' || c = '\n' || c = '\r' || c = '\x0b' || c = '\x0c'

/-- Python `str.strip()`. -/
def pyStrip (cs : List Char) : List Char :=
  ((cs.dropWhile pyIsSpace).reverse.dropWhile pyIsSpace).reverse

/-- Prepend a character to the first piece of a split result. -/
def consHead (c : Char) : List (List Char) → List (List Char)
  | [] => [[c]]
  | l :: ls => (c :: l) :: ls

/-- Python `text.split(sep)` for `sep` = two newlines: non-overlapping,
leftmost-first. -/
def splitPar : List Char → List (List Char)
  | [] => [[]]
  | c :: rest =>
    if c = '\n' then
      match rest with
      | c2 :: rest2 =>
        if c2 = '\n' then [] :: splitPar rest2
        else consHead c (consHead c2 (splitPar rest2))
      | [] => [[c]]
    else consHead c (splitPar rest)

/-- Python `text.split(single newline)`. -/
def splitLines : List Char → List (List Char)
  | [] => [[]]
  | c :: rest =>
    if c = '\n' then [] :: splitLines rest
    else consHead c (splitLines rest)

/-- `re.sub` of a run of three or more newlines by exactly two: `k` counts
the newlines already seen in the current run. -/
def collapseNlAux : Nat → List Char → List Char
  | _, [] => []
  | k, c :: rest =>
    if c = '\n' then
      if 2 ≤ k then collapseNlAux (k + 1) rest
      else '\n' :: collapseNlAux (k + 1) rest
    else c :: collapseNlAux 0 rest

def collapseNewlines (cs : List Char) : List Char := collapseNlAux 0 cs

/-- `re.sub` of a run of spaces by a single space; the flag records whether
the previous character was a space. -/
def collapseSpacesAux : Bool → List Char → List Char
  | _, [] => []
  | prevSpace, c :: rest =>
    if c = ' ' then
      if prevSpace then collapseSpacesAux true rest
      else ' ' :: collapseSpacesAux true rest
    else c :: collapseSpacesAux false rest

def collapseSpaces (cs : List Char) : List Char := collapseSpacesAux false cs

/-- Python `(single newline).join`. -/
def joinNl : List (List Char) → List Char
  | [] => []
  | l :: ls =>
    match ls with
    | [] => l
    | _ :: _ => l ++ '\n' :: joinNl ls

/-- Python `(two newlines).join` over paragraphs. -/
def joinPar : List (List Char) → List Char
  | [] => []
  | p :: ps =>
    match ps with
    | [] => p
    | _ :: _ => p ++ '\n' :: '\n' :: joinPar ps

/-- Embedding of `_clean_whitespace`: collapse newline runs of three or
more to two, then per line strip and collapse space runs, rejoin with
newlines, and strip the whole. -/
def cleanWhitespace (cs : List Char) : List Char :=
  pyStrip (joinNl ((splitLines (collapseNewlines cs)).map
    (fun l => collapseSpaces (pyStrip l))))

/-- Finalize the running chunk: join with blank lines, clean whitespace and
keep the result only when non-empty (`if chunk_text: chunks.append(...)`). -/
def closeChunk (current : List (List Char)) : List (List Char) :=
  match current with
  | [] => []
  | _ :: _ =>
    if cleanWhitespace (joinPar current) = [] then []
    else [cleanWhitespace (joinPar current)]

/-- The greedy accumulation loop of `chunk_text` over the split paragraphs. -/
def greedy (max_chunk_size : Nat) :
    List (List Char) → List (List Char) → List (List Char) → List (List Char)
  | [], chunks, current => chunks ++ closeChunk current
  | p :: ps, chunks, current =>
    if pyStrip p = [] then greedy max_chunk_size ps chunks current
    else if current ≠ [] ∧
        max_chunk_size < (joinPar (current ++ [pyStrip p])).length then
      greedy max_chunk_size ps (chunks ++ closeChunk current) [pyStrip p]
    else greedy max_chunk_size ps chunks (current ++ [pyStrip p])

/-- One step of the small-chunk merge pass; the accumulator holds
`merged_chunks` in reverse, so its head is `merged_chunks[-1]`. -/
def mergeStep (max_chunk_size min_chunk_size : Nat)
    (acc : List (List Char)) (c : List Char) : List (List Char) :=
  match acc with
  | [] => [c]
  | prev :: restAcc =>
    if c.length < min_chunk_size then
      if prev.length + c.length + 2 ≤ max_chunk_size then
        cleanWhitespace (prev ++ '\n' :: '\n' :: c) :: restAcc
      else c :: prev :: restAcc
    else c :: prev :: restAcc

/-- The `min_chunk_size` merge pass of `chunk_text`. -/
def mergeSmall (max_chunk_size min_chunk_size : Nat)
    (chunks : List (List Char)) : List (List Char) :=
  (chunks.foldl (mergeStep max_chunk_size min_chunk_size) []).reverse

/-- Embedding of `chunk_text(text, max_chunk_size, min_chunk_size)` on
character lists. -/
def chunkTextL (text : List Char) (max_chunk_size min_chunk_size : Nat) :
    List (List Char) :=
  if 0 < min_chunk_size then
    mergeSmall max_chunk_size min_chunk_size (greedy max_chunk_size (splitPar text) [] [])
  else greedy max_chunk_size (splitPar text) [] []

/-- Embedding of `chunk_text` on strings (defaults 1000 / 300). -/
def chunk_text (text : String) (max_chunk_size : Nat := 1000)
    (min_chunk_size : Nat := 300) : List String :=
  (chunkTextL text.data max_chunk_size min_chunk_size).map String.mk

/-- The whitespace-stripped non-empty paragraphs of the input, in order. -/
def strippedPars (text : List Char) : List (List Char) :=
  ((splitPar text).map pyStrip).filter (fun p => !p.isEmpty)

/-- Erase all whitespace: the lens through which chunk contents are compared
to the input paragraphs, ignoring separators and whitespace normalization. -/
def squash (cs : List Char) : List Char := cs.filter (fun c => !pyIsSpace c)

end Clindoc

namespace Clindoc

theorem consHead_ne_nil (c : Char) (ls : List (List Char)) : consHead c ls ≠ [] := by
  cases ls <;> simp [consHead]

theorem splitLines_ne_nil (cs : List Char) : splitLines cs ≠ [] := by
  cases cs with
  | nil => simp [splitLines]
  | cons c rest =>
    simp only [splitLines]
    split
    · simp
    · exact consHead_ne_nil c (splitLines rest)

theorem joinNl_consHead (c : Char) (ls : List (List Char)) :
    joinNl (consHead c ls) = c :: joinNl ls := by
  cases ls with
  | nil => rfl
  | cons l ls2 => cases ls2 <;> simp [consHead, joinNl]

theorem joinPar_consHead (c : Char) (ls : List (List Char)) :
    joinPar (consHead c ls) = c :: joinPar ls := by
  cases ls with
  | nil => rfl
  | cons l ls2 => cases ls2 <;> simp [consHead, joinPar]

theorem joinNl_splitLines (cs : List Char) : joinNl (splitLines cs) = cs := by
  induction cs with
  | nil => rfl
  | cons c rest ih =>
    by_cases hc : c = '\n'
    · subst hc
      simp only [splitLines, if_pos rfl]
      obtain ⟨l, ls, he⟩ := List.exists_cons_of_ne_nil (splitLines_ne_nil rest)
      rw [he]
      show joinNl ([] :: l :: ls) = '\n' :: rest
      rw [show joinNl ([] :: l :: ls) = [] ++ '\n' :: joinNl (l :: ls) from rfl]
      rw [List.nil_append, ← he, ih]
    · simp only [splitLines, if_neg hc, joinNl_consHead, ih]

theorem splitPar_nlnl (rest2 : List Char) :
    splitPar ('\n' :: '\n' :: rest2) = [] :: splitPar rest2 := rfl

theorem splitPar_nl_other (c2 : Char) (rest2 : List Char) (h : ¬c2 = '\n') :
    splitPar ('\n' :: c2 :: rest2) = consHead '\n' (consHead c2 (splitPar rest2)) := by
  have e : splitPar ('\n' :: c2 :: rest2)
      = if c2 = '\n' then [] :: splitPar rest2
        else consHead '\n' (consHead c2 (splitPar rest2)) := rfl
  rw [e, if_neg h]

theorem splitPar_other (c : Char) (rest : List Char) (h : ¬c = '\n') :
    splitPar (c :: rest) = consHead c (splitPar rest) := by
  cases rest with
  | nil =>
    have e : splitPar [c] = if c = '\n' then [[c]] else consHead c (splitPar []) := rfl
    rw [e, if_neg h]
  | cons c2 rest2 =>
    have e : splitPar (c :: c2 :: rest2)
        = if c = '\n' then
            (if c2 = '\n' then [] :: splitPar rest2
             else consHead c (consHead c2 (splitPar rest2)))
          else consHead c (splitPar (c2 :: rest2)) := rfl
    rw [e, if_neg h]

theorem splitPar_ne_nil (cs : List Char) : splitPar cs ≠ [] := by
  cases cs with
  | nil => simp [splitPar]
  | cons c rest =>
    by_cases hc : c = '\n'
    · subst hc
      cases rest with
      | nil => simp [splitPar]
      | cons c2 rest2 =>
        by_cases hc2 : c2 = '\n'
        · subst hc2; rw [splitPar_nlnl]; simp
        · rw [splitPar_nl_other c2 rest2 hc2]; exact consHead_ne_nil _ _
    · rw [splitPar_other c rest hc]; exact consHead_ne_nil _ _

theorem joinPar_splitPar_fuel :
    ∀ (n : Nat) (cs : List Char), cs.length ≤ n → joinPar (splitPar cs) = cs := by
  intro n
  induction n with
  | zero =>
    intro cs h
    have : cs = [] := List.eq_nil_of_length_eq_zero (Nat.le_zero.mp h)
    subst this
    rfl
  | succ n ih =>
    intro cs h
    cases cs with
    | nil => rfl
    | cons c rest =>
      simp only [List.length_cons] at h
      by_cases hc : c = '\n'
      · subst hc
        cases rest with
        | nil => rfl
        | cons c2 rest2 =>
          simp only [List.length_cons] at h
          by_cases hc2 : c2 = '\n'
          · subst hc2
            rw [splitPar_nlnl]
            obtain ⟨l, ls, he⟩ := List.exists_cons_of_ne_nil (splitPar_ne_nil rest2)
            rw [he]
            rw [show joinPar ([] :: l :: ls) = [] ++ '\n' :: '\n' :: joinPar (l :: ls) from rfl]
            rw [List.nil_append, ← he, ih rest2 (by omega)]
          · rw [splitPar_nl_other c2 rest2 hc2, joinPar_consHead, joinPar_consHead]
            rw [ih rest2 (by omega)]
      · rw [splitPar_other c rest hc, joinPar_consHead]
        rw [ih rest (by omega)]

theorem joinPar_splitPar (cs : List Char) : joinPar (splitPar cs) = cs :=
  joinPar_splitPar_fuel cs.length cs (le_refl _)

theorem pyStrip_length_le (cs : List Char) : (pyStrip cs).length ≤ cs.length := by
  unfold pyStrip
  rw [List.length_reverse]
  have h1 := ((cs.dropWhile pyIsSpace).reverse.dropWhile_sublist pyIsSpace).length_le
  have h2 := (cs.dropWhile_sublist pyIsSpace).length_le
  rw [List.length_reverse] at h1
  omega

end Clindoc

namespace Clindoc

theorem collapseNlAux_length_le :
    ∀ (cs : List Char) (k : Nat), (collapseNlAux k cs).length ≤ cs.length := by
  intro cs
  induction cs with
  | nil => intro k; simp [collapseNlAux]
  | cons c rest ih =>
    intro k
    simp only [collapseNlAux]
    by_cases hc : c = '\n'
    · rw [if_pos hc]
      by_cases hk : 2 ≤ k
      · rw [if_pos hk]
        have := ih (k + 1)
        simp only [List.length_cons]
        omega
      · rw [if_neg hk]
        have := ih (k + 1)
        simp only [List.length_cons]
        omega
    · rw [if_neg hc]
      have := ih 0
      simp only [List.length_cons]
      omega

theorem collapseSpacesAux_length_le :
    ∀ (cs : List Char) (b : Bool), (collapseSpacesAux b cs).length ≤ cs.length := by
  intro cs
  induction cs with
  | nil => intro b; simp [collapseSpacesAux]
  | cons c rest ih =>
    intro b
    simp only [collapseSpacesAux]
    by_cases hc : c = ' '
    · rw [if_pos hc]
      cases b
      · rw [if_neg (by simp)]
        have := ih true
        simp only [List.length_cons]
        omega
      · rw [if_pos rfl]
        have := ih true
        simp only [List.length_cons]
        omega
    · rw [if_neg hc]
      have := ih false
      simp only [List.length_cons]
      omega

theorem joinNl_map_length_le (f : List Char → List Char) :
    ∀ (ls : List (List Char)), (∀ l ∈ ls, (f l).length ≤ l.length) →
      (joinNl (ls.map f)).length ≤ (joinNl ls).length := by
  intro ls
  induction ls with
  | nil => intro _; simp [joinNl]
  | cons l ls ih =>
    intro h
    cases ls with
    | nil =>
      simp only [List.map_cons, List.map_nil, joinNl]
      exact h l (by simp)
    | cons l2 ls2 =>
      have e1 : joinNl (f l :: f l2 :: ls2.map f)
          = f l ++ '\n' :: joinNl (f l2 :: ls2.map f) := rfl
      have e2 : joinNl (l :: l2 :: ls2) = l ++ '\n' :: joinNl (l2 :: ls2) := rfl
      simp only [List.map_cons] at *
      rw [e1, e2]
      simp only [List.length_append, List.length_cons]
      have h1 := h l (by simp)
      have h2 : (joinNl (f l2 :: ls2.map f)).length ≤ (joinNl (l2 :: ls2)).length := by
        have := ih (fun x hx => h x (by simp [hx]))
        simpa using this
      omega

theorem cleanWhitespace_length_le (cs : List Char) :
    (cleanWhitespace cs).length ≤ cs.length := by
  unfold cleanWhitespace
  have h1 : ∀ l ∈ splitLines (collapseNewlines cs),
      (collapseSpaces (pyStrip l)).length ≤ l.length := by
    intro l _
    calc (collapseSpaces (pyStrip l)).length
        ≤ (pyStrip l).length := collapseSpacesAux_length_le (pyStrip l) false
      _ ≤ l.length := pyStrip_length_le l
  calc (pyStrip (joinNl ((splitLines (collapseNewlines cs)).map
          (fun l => collapseSpaces (pyStrip l))))).length
      ≤ (joinNl ((splitLines (collapseNewlines cs)).map
          (fun l => collapseSpaces (pyStrip l)))).length := pyStrip_length_le _
    _ ≤ (joinNl (splitLines (collapseNewlines cs))).length :=
        joinNl_map_length_le _ _ h1
    _ = (collapseNewlines cs).length := by rw [joinNl_splitLines]
    _ ≤ cs.length := collapseNlAux_length_le cs 0

end Clindoc

namespace Clindoc

theorem squash_append (a b : List Char) : squash (a ++ b) = squash a ++ squash b :=
  List.filter_append a b

theorem squash_cons_space {c : Char} (h : pyIsSpace c = true) (cs : List Char) :
    squash (c :: cs) = squash cs := by
  simp [squash, List.filter_cons, h]

theorem squash_cons_keep {c : Char} (h : pyIsSpace c = false) (cs : List Char) :
    squash (c :: cs) = c :: squash cs := by
  simp [squash, List.filter_cons, h]

theorem squash_dropWhile (cs : List Char) :
    squash (cs.dropWhile pyIsSpace) = squash cs := by
  induction cs with
  | nil => rfl
  | cons c rest ih =>
    rw [List.dropWhile_cons]
    by_cases hc : pyIsSpace c = true
    · rw [if_pos hc, ih, squash_cons_space hc]
    · rw [if_neg hc]

theorem squash_reverse (cs : List Char) : squash (cs.reverse) = (squash cs).reverse :=
  List.filter_reverse _ cs

theorem squash_pyStrip (cs : List Char) : squash (pyStrip cs) = squash cs := by
  unfold pyStrip
  rw [squash_reverse, squash_dropWhile, squash_reverse, List.reverse_reverse,
    squash_dropWhile]

theorem squash_collapseNlAux :
    ∀ (cs : List Char) (k : Nat), squash (collapseNlAux k cs) = squash cs := by
  intro cs
  induction cs with
  | nil => intro k; rfl
  | cons c rest ih =>
    intro k
    simp only [collapseNlAux]
    by_cases hc : c = '\n'
    · subst hc
      have hsp : pyIsSpace '\n' = true := by decide
      rw [if_pos rfl]
      by_cases hk : 2 ≤ k
      · rw [if_pos hk, ih (k + 1), squash_cons_space hsp]
      · rw [if_neg hk, squash_cons_space hsp, ih (k + 1), squash_cons_space hsp]
    · rw [if_neg hc]
      by_cases hsp : pyIsSpace c = true
      · rw [squash_cons_space hsp, squash_cons_space hsp, ih 0]
      · rw [squash_cons_keep (Bool.not_eq_true _ ▸ hsp), 
          squash_cons_keep (Bool.not_eq_true _ ▸ hsp), ih 0]

theorem squash_collapseSpacesAux :
    ∀ (cs : List Char) (b : Bool), squash (collapseSpacesAux b cs) = squash cs := by
  intro cs
  induction cs with
  | nil => intro b; rfl
  | cons c rest ih =>
    intro b
    simp only [collapseSpacesAux]
    by_cases hc : c = ' '
    · subst hc
      have hsp : pyIsSpace ' ' = true := by decide
      rw [if_pos rfl]
      cases b
      · rw [if_neg (by simp), squash_cons_space hsp, ih true, squash_cons_space hsp]
      · rw [if_pos rfl, ih true, squash_cons_space hsp]
    · rw [if_neg hc]
      by_cases hsp : pyIsSpace c = true
      · rw [squash_cons_space hsp, squash_cons_space hsp, ih false]
      · rw [squash_cons_keep (Bool.not_eq_true _ ▸ hsp),
          squash_cons_keep (Bool.not_eq_true _ ▸ hsp), ih false]

theorem squash_joinNl :
    ∀ (ls : List (List Char)), squash (joinNl ls) = (ls.map squash).flatten := by
  intro ls
  induction ls with
  | nil => rfl
  | cons l ls ih =>
    cases ls with
    | nil => simp [joinNl]
    | cons l2 ls2 =>
      have e : joinNl (l :: l2 :: ls2) = l ++ '\n' :: joinNl (l2 :: ls2) := rfl
      rw [e, squash_append, squash_cons_space (by decide), ih]
      simp

theorem squash_joinPar :
    ∀ (ls : List (List Char)), squash (joinPar ls) = (ls.map squash).flatten := by
  intro ls
  induction ls with
  | nil => rfl
  | cons l ls ih =>
    cases ls with
    | nil => simp [joinPar]
    | cons l2 ls2 =>
      have e : joinPar (l :: l2 :: ls2) = l ++ '\n' :: '\n' :: joinPar (l2 :: ls2) := rfl
      rw [e, squash_append, squash_cons_space (by decide), squash_cons_space (by decide), ih]
      simp

theorem squash_cleanWhitespace (cs : List Char) :
    squash (cleanWhitespace cs) = squash cs := by
  unfold cleanWhitespace
  rw [squash_pyStrip, squash_joinNl, List.map_map]
  have hcong : (splitLines (collapseNewlines cs)).map
        (squash ∘ fun l => collapseSpaces (pyStrip l))
      = (splitLines (collapseNewlines cs)).map squash := by
    apply List.map_congr_left
    intro l _
    show squash (collapseSpaces (pyStrip l)) = squash l
    rw [show collapseSpaces (pyStrip l) = collapseSpacesAux false (pyStrip l) from rfl,
      squash_collapseSpacesAux, squash_pyStrip]
  rw [hcong, ← squash_joinNl, joinNl_splitLines,
    show collapseNewlines cs = collapseNlAux 0 cs from rfl, squash_collapseNlAux]

theorem dropWhile_head_false {q : Char → Bool} :
    ∀ {l : List Char} {c : Char} {t : List Char},
      l.dropWhile q = c :: t → q c = false := by
  intro l
  induction l with
  | nil => intro c t h; cases h
  | cons a l ih =>
    intro c t h
    rw [List.dropWhile_cons] at h
    by_cases ha : q a = true
    · rw [if_pos ha] at h
      exact ih h
    · rw [if_neg ha] at h
      cases h
      exact Bool.not_eq_true _ ▸ ha

theorem squash_pyStrip_ne_nil {p : List Char} (h : pyStrip p ≠ []) :
    squash (pyStrip p) ≠ [] := by
  have hd : p.dropWhile pyIsSpace ≠ [] := by
    intro hnil
    apply h
    unfold pyStrip
    rw [hnil]
    rfl
  obtain ⟨c, t, hct⟩ := List.exists_cons_of_ne_nil hd
  have hqc : pyIsSpace c = false := dropWhile_head_false hct
  have hmem : c ∈ squash (p.dropWhile pyIsSpace) := by
    rw [hct, squash_cons_keep hqc]
    exact List.mem_cons_self c _
  rw [squash_pyStrip, ← squash_dropWhile]
  exact List.ne_nil_of_mem hmem

end Clindoc

namespace Clindoc

/-- A chunk is acceptable when it fits in `max`, or is the
whitespace-normalization of one single over-long paragraph from `S`. -/
def sizeOk (S : List (List Char)) (max_chunk_size : Nat) (c : List Char) : Prop :=
  c.length ≤ max_chunk_size
  ∨ ∃ p ∈ S, c = cleanWhitespace p ∧ max_chunk_size < c.length

theorem closeChunk_sizeOk {S : List (List Char)} {max_chunk_size : Nat}
    {current : List (List Char)}
    (h : current = [] ∨ (joinPar current).length ≤ max_chunk_size
      ∨ ∃ p ∈ S, current = [p]) :
    ∀ c ∈ closeChunk current, sizeOk S max_chunk_size c := by
  intro c hc
  cases current with
  | nil => simp [closeChunk] at hc
  | cons hd tl =>
    simp only [closeChunk] at hc
    by_cases he : cleanWhitespace (joinPar (hd :: tl)) = []
    · rw [if_pos he] at hc
      simp at hc
    · rw [if_neg he] at hc
      rw [List.mem_singleton] at hc
      subst hc
      rcases h with h | h | ⟨p, hp, hcur⟩
      · cases h
      · exact Or.inl (le_trans (cleanWhitespace_length_le _) h)
      · rw [hcur]
        have hjp : joinPar [p] = p := rfl
        rw [hjp]
        by_cases hlen : (cleanWhitespace p).length ≤ max_chunk_size
        · exact Or.inl hlen
        · exact Or.inr ⟨p, hp, rfl, Nat.lt_of_not_le hlen⟩

theorem greedy_sizeOk (max_chunk_size : Nat) (S : List (List Char)) :
    ∀ (ps chunks current : List (List Char)),
      (∀ p ∈ ps, pyStrip p ≠ [] → pyStrip p ∈ S) →
      (∀ c ∈ chunks, sizeOk S max_chunk_size c) →
      (current = [] ∨ (joinPar current).length ≤ max_chunk_size
        ∨ ∃ p ∈ S, current = [p]) →
      ∀ c ∈ greedy max_chunk_size ps chunks current, sizeOk S max_chunk_size c := by
  intro ps
  induction ps with
  | nil =>
    intro chunks current _ hchunks hcur c hc
    simp only [greedy] at hc
    rcases List.mem_append.mp hc with hc | hc
    · exact hchunks c hc
    · exact closeChunk_sizeOk hcur c hc
  | cons p ps ih =>
    intro chunks current hS hchunks hcur c hc
    simp only [greedy] at hc
    by_cases hps : pyStrip p = []
    · rw [if_pos hps] at hc
      exact ih chunks current (fun q hq => hS q (List.mem_cons_of_mem p hq))
        hchunks hcur c hc
    · rw [if_neg hps] at hc
      by_cases hfull : current ≠ [] ∧
          max_chunk_size < (joinPar (current ++ [pyStrip p])).length
      · rw [if_pos hfull] at hc
        refine ih _ _ (fun q hq => hS q (List.mem_cons_of_mem p hq)) ?_ ?_ c hc
        · intro d hd
          rcases List.mem_append.mp hd with hd | hd
          · exact hchunks d hd
          · exact closeChunk_sizeOk hcur d hd
        · exact Or.inr (Or.inr ⟨pyStrip p, hS p (List.mem_cons_self p ps) hps, rfl⟩)
      · rw [if_neg hfull] at hc
        refine ih _ _ (fun q hq => hS q (List.mem_cons_of_mem p hq)) hchunks ?_ c hc
        by_cases hcurnil : current = []
        · subst hcurnil
          exact Or.inr (Or.inr ⟨pyStrip p, hS p (List.mem_cons_self p ps) hps, rfl⟩)
        · have hle : (joinPar (current ++ [pyStrip p])).length ≤ max_chunk_size :=
            Nat.le_of_not_lt (fun hlt => hfull ⟨hcurnil, hlt⟩)
          exact Or.inr (Or.inl hle)

theorem mergeFold_sizeOk (max_chunk_size min_chunk_size : Nat) (S : List (List Char)) :
    ∀ (chunks acc : List (List Char)),
      (∀ c ∈ acc, sizeOk S max_chunk_size c) →
      (∀ c ∈ chunks, sizeOk S max_chunk_size c) →
      ∀ c ∈ chunks.foldl (mergeStep max_chunk_size min_chunk_size) acc,
        sizeOk S max_chunk_size c := by
  intro chunks
  induction chunks with
  | nil => intro acc hacc _ c hc; exact hacc c hc
  | cons b chunks ih =>
    intro acc hacc hchunks c hc
    simp only [List.foldl_cons] at hc
    refine ih _ ?_ (fun d hd => hchunks d (List.mem_cons_of_mem b hd)) c hc
    intro d hd
    have hb := hchunks b (List.mem_cons_self b chunks)
    cases acc with
    | nil =>
      simp only [mergeStep] at hd
      rw [List.mem_singleton] at hd
      subst hd
      exact hb
    | cons prev racc =>
      simp only [mergeStep] at hd
      by_cases hsmall : b.length < min_chunk_size
      · rw [if_pos hsmall] at hd
        by_cases hcomb : prev.length + b.length + 2 ≤ max_chunk_size
        · rw [if_pos hcomb] at hd
          rcases List.mem_cons.mp hd with hd | hd
          · subst hd
            refine Or.inl (le_trans (cleanWhitespace_length_le _) ?_)
            simp only [List.length_append, List.length_cons]
            omega
          · exact hacc d (List.mem_cons_of_mem prev hd)
        · rw [if_neg hcomb] at hd
          rcases List.mem_cons.mp hd with hd | hd
          · subst hd; exact hb
          · exact hacc d hd
      · rw [if_neg hsmall] at hd
        rcases List.mem_cons.mp hd with hd | hd
        · subst hd; exact hb
        · exact hacc d hd

end Clindoc

namespace Clindoc

/-- C2: for positive sizes with `min_chunk_size ≤ max_chunk_size`, every
chunk produced by `chunk_text` has length at most `max_chunk_size`, except a
chunk that is the whitespace-normalization of one single input paragraph
whose normalized length alone exceeds `max_chunk_size` (the chunker never
splits inside a paragraph). -/
theorem chunk_text_size (text : String) (max_chunk_size min_chunk_size : Nat)
    (hmax : 0 < max_chunk_size) (hmin : 0 < min_chunk_size)
    (hle : min_chunk_size ≤ max_chunk_size) :
    ∀ c ∈ chunk_text text max_chunk_size min_chunk_size,
      c.length ≤ max_chunk_size
      ∨ ∃ p ∈ strippedPars text.data,
          c = String.mk (cleanWhitespace p)
          ∧ max_chunk_size < (cleanWhitespace p).length := by
  intro c hc
  unfold chunk_text at hc
  obtain ⟨l, hl, rfl⟩ := List.mem_map.mp hc
  have hS : ∀ p ∈ splitPar text.data, pyStrip p ≠ [] → pyStrip p ∈ strippedPars text.data := by
    intro p hp hne
    unfold strippedPars
    rw [List.mem_filter]
    refine ⟨List.mem_map.mpr ⟨p, hp, rfl⟩, ?_⟩
    simpa [List.isEmpty_iff] using hne
  have hg : ∀ d ∈ greedy max_chunk_size (splitPar text.data) [] [],
      sizeOk (strippedPars text.data) max_chunk_size d :=
    greedy_sizeOk max_chunk_size (strippedPars text.data) (splitPar text.data) [] []
      hS (by simp) (Or.inl rfl)
  have hfin : sizeOk (strippedPars text.data) max_chunk_size l := by
    unfold chunkTextL at hl
    rw [if_pos hmin] at hl
    unfold mergeSmall at hl
    rw [List.mem_reverse] at hl
    exact mergeFold_sizeOk max_chunk_size min_chunk_size (strippedPars text.data)
      (greedy max_chunk_size (splitPar text.data) [] []) [] (by simp) hg l hl
  have hlen : (String.mk l).length = l.length := rfl
  rcases hfin with h | ⟨p, hp, rfl, hlt⟩
  · exact Or.inl (hlen ▸ h)
  · exact Or.inr ⟨p, hp, rfl, hlt⟩

theorem chunk_text_size_witness :
    ("hello\n\nworld" : String).length ≤ 20
    ∨ ∃ p ∈ strippedPars ("hello\n\nworld" : String).data,
        ("hello\n\nworld" : String) = String.mk (cleanWhitespace p)
        ∧ 20 < (cleanWhitespace p).length :=
  chunk_text_size "hello\n\nworld" 20 1 (by decide) (by decide) (by decide)
    "hello\n\nworld" (by decide)

end Clindoc

namespace Clindoc

/-- The whitespace-erased content of a group of paragraphs. -/
def flatSq (g : List (List Char)) : List Char := (g.map squash).flatten

theorem flatSq_append (g1 g2 : List (List Char)) :
    flatSq (g1 ++ g2) = flatSq g1 ++ flatSq g2 := by
  unfold flatSq
  rw [List.map_append, List.flatten_append]

theorem flatSq_ne_nil {current : List (List Char)}
    (hne : current ≠ []) (h : ∀ q ∈ current, squash q ≠ []) :
    flatSq current ≠ [] := by
  obtain ⟨q, rest, rfl⟩ := List.exists_cons_of_ne_nil hne
  unfold flatSq
  simp only [List.map_cons, List.flatten_cons]
  intro hnil
  exact h q (List.mem_cons_self q rest) (List.append_eq_nil.mp hnil).1

theorem squash_closeChunk_head {current : List (List Char)} (hne : current ≠ [])
    (h : ∀ q ∈ current, squash q ≠ []) :
    closeChunk current = [cleanWhitespace (joinPar current)]
    ∧ squash (cleanWhitespace (joinPar current)) = flatSq current := by
  have h1 : squash (cleanWhitespace (joinPar current)) = flatSq current := by
    rw [squash_cleanWhitespace, squash_joinPar]
    rfl
  have h2 : cleanWhitespace (joinPar current) ≠ [] := by
    intro hnil
    apply flatSq_ne_nil hne h
    rw [← h1, hnil]
    rfl
  obtain ⟨hd, tl, rfl⟩ := List.exists_cons_of_ne_nil hne
  exact ⟨by simp only [closeChunk, if_neg h2], h1⟩

theorem greedy_groups (max_chunk_size : Nat) :
    ∀ (ps chunks current : List (List Char)) (gacc : List (List (List Char))),
      chunks.map squash = gacc.map flatSq →
      (∀ q ∈ current, squash q ≠ []) →
      ∃ gs : List (List (List Char)),
        (greedy max_chunk_size ps chunks current).map squash = gs.map flatSq
        ∧ gs.flatten = gacc.flatten ++ current
            ++ ((ps.map pyStrip).filter (fun p => !p.isEmpty)) := by
  intro ps
  induction ps with
  | nil =>
    intro chunks current gacc hmap hcur
    simp only [greedy, List.map_nil, List.filter_nil, List.append_nil]
    by_cases hne : current = []
    · subst hne
      refine ⟨gacc, ?_, by simp⟩
      simp [closeChunk, hmap]
    · obtain ⟨hclose, hsq⟩ := squash_closeChunk_head hne hcur
      refine ⟨gacc ++ [current], ?_, by simp⟩
      rw [hclose, List.map_append, List.map_append, hmap]
      simp [hsq]
  | cons p ps ih =>
    intro chunks current gacc hmap hcur
    simp only [greedy]
    by_cases hps : pyStrip p = []
    · rw [if_pos hps]
      obtain ⟨gs, h1, h2⟩ := ih chunks current gacc hmap hcur
      refine ⟨gs, h1, ?_⟩
      rw [h2]
      simp [List.filter_cons, hps]
    · rw [if_neg hps]
      have hp2 : squash (pyStrip p) ≠ [] := squash_pyStrip_ne_nil hps
      by_cases hfull : current ≠ [] ∧
          max_chunk_size < (joinPar (current ++ [pyStrip p])).length
      · rw [if_pos hfull]
        obtain ⟨hclose, hsq⟩ := squash_closeChunk_head hfull.1 hcur
        have hmap2 : (chunks ++ closeChunk current).map squash
            = (gacc ++ [current]).map flatSq := by
          rw [hclose, List.map_append, List.map_append, hmap]
          simp [hsq]
        obtain ⟨gs, h1, h2⟩ := ih (chunks ++ closeChunk current) [pyStrip p]
          (gacc ++ [current]) hmap2 (by
            intro q hq
            rw [List.mem_singleton] at hq
            subst hq
            exact hp2)
        refine ⟨gs, h1, ?_⟩
        rw [h2]
        simp only [List.flatten_append, List.flatten_cons, List.flatten_nil,
          List.append_nil, List.map_cons, List.filter_cons]
        rw [if_pos (by simpa [List.isEmpty_iff] using hps)]
        simp [List.append_assoc]
      · rw [if_neg hfull]
        obtain ⟨gs, h1, h2⟩ := ih chunks (current ++ [pyStrip p]) gacc hmap (by
          intro q hq
          rcases List.mem_append.mp hq with hq | hq
          · exact hcur q hq
          · rw [List.mem_singleton] at hq
            subst hq
            exact hp2)
        refine ⟨gs, h1, ?_⟩
        rw [h2]
        simp only [List.map_cons, List.filter_cons]
        rw [if_pos (by simpa [List.isEmpty_iff] using hps)]
        simp [List.append_assoc]

theorem merge_groups (max_chunk_size min_chunk_size : Nat) :
    ∀ (chunks : List (List Char)) (gs : List (List (List Char)))
      (acc : List (List Char)) (gacc : List (List (List Char))),
      acc.map squash = gacc.map flatSq →
      chunks.map squash = gs.map flatSq →
      ∃ gout : List (List (List Char)),
        (chunks.foldl (mergeStep max_chunk_size min_chunk_size) acc).map squash
          = gout.map flatSq
        ∧ gout.reverse.flatten = gacc.reverse.flatten ++ gs.flatten := by
  intro chunks
  induction chunks with
  | nil =>
    intro gs acc gacc hacc hgs
    have : gs = [] := by
      cases gs with
      | nil => rfl
      | cons g gs2 => simp at hgs
    subst this
    exact ⟨gacc, hacc, by simp⟩
  | cons b chunks ih =>
    intro gs acc gacc hacc hgs
    obtain ⟨g, gs2, rfl⟩ : ∃ g gs2, gs = g :: gs2 := by
      cases gs with
      | nil => simp at hgs
      | cons g gs2 => exact ⟨g, gs2, rfl⟩
    simp only [List.map_cons] at hgs
    have hgb : squash b = flatSq g := (List.cons.injEq _ _ _ _ ▸ hgs).1
    have hgs2 : chunks.map squash = gs2.map flatSq := (List.cons.injEq _ _ _ _ ▸ hgs).2
    simp only [List.foldl_cons]
    cases acc with
    | nil =>
      have hgacc : gacc = [] := by
        cases gacc with
        | nil => rfl
        | cons x xs => simp at hacc
      subst hgacc
      obtain ⟨gout, h1, h2⟩ := ih gs2 [b] [g] (by simp [hgb]) hgs2
      refine ⟨gout, by simpa [mergeStep] using h1, ?_⟩
      rw [h2]
      simp
    | cons prev racc =>
      obtain ⟨gp, gracc, rfl⟩ : ∃ gp gracc, gacc = gp :: gracc := by
        cases gacc with
        | nil => simp at hacc
        | cons gp gracc => exact ⟨gp, gracc, rfl⟩
      simp only [List.map_cons] at hacc
      have hprev : squash prev = flatSq gp := (List.cons.injEq _ _ _ _ ▸ hacc).1
      have hracc : racc.map squash = gracc.map flatSq := (List.cons.injEq _ _ _ _ ▸ hacc).2
      by_cases hsmall : b.length < min_chunk_size
      · by_cases hcomb : prev.length + b.length + 2 ≤ max_chunk_size
        · have hstep : mergeStep max_chunk_size min_chunk_size (prev :: racc) b
              = cleanWhitespace (prev ++ '\n' :: '\n' :: b) :: racc := by
            simp only [mergeStep, if_pos hsmall, if_pos hcomb]
          have hsqm : squash (cleanWhitespace (prev ++ '\n' :: '\n' :: b))
              = flatSq (gp ++ g) := by
            rw [squash_cleanWhitespace, squash_append,
              squash_cons_space (by decide), squash_cons_space (by decide),
              flatSq_append, hprev, hgb]
          obtain ⟨gout, h1, h2⟩ := ih gs2
            (cleanWhitespace (prev ++ '\n' :: '\n' :: b) :: racc)
            ((gp ++ g) :: gracc) (by simp [hsqm, hracc]) hgs2
          refine ⟨gout, by rw [hstep]; exact h1, ?_⟩
          rw [h2]
          simp [List.append_assoc]
        · have hstep : mergeStep max_chunk_size min_chunk_size (prev :: racc) b
              = b :: prev :: racc := by
            simp only [mergeStep, if_pos hsmall, if_neg hcomb]
          obtain ⟨gout, h1, h2⟩ := ih gs2 (b :: prev :: racc) (g :: gp :: gracc)
            (by simp [hgb, hprev, hracc]) hgs2
          refine ⟨gout, by rw [hstep]; exact h1, ?_⟩
          rw [h2]
          simp [List.append_assoc]
      · have hstep : mergeStep max_chunk_size min_chunk_size (prev :: racc) b
            = b :: prev :: racc := by
          simp only [mergeStep, if_neg hsmall]
        obtain ⟨gout, h1, h2⟩ := ih gs2 (b :: prev :: racc) (g :: gp :: gracc)
          (by simp [hgb, hprev, hracc]) hgs2
        refine ⟨gout, by rw [hstep]; exact h1, ?_⟩
        rw [h2]
        simp [List.append_assoc]

end Clindoc

namespace Clindoc

theorem flatten_map_flatSq :
    ∀ (gs : List (List (List Char))),
      (gs.map flatSq).flatten = ((gs.flatten).map squash).flatten := by
  intro gs
  induction gs with
  | nil => rfl
  | cons g gs ih =>
    simp only [List.map_cons, List.flatten_cons, List.map_append, List.flatten_append, ih]
    rfl

theorem mem_joinPar {c : Char} :
    ∀ {ls : List (List Char)} {p : List Char}, p ∈ ls → c ∈ p → c ∈ joinPar ls := by
  intro ls
  induction ls with
  | nil => intro p hp; cases hp
  | cons l ls ih =>
    intro p hp hc
    cases ls with
    | nil =>
      rw [List.mem_singleton] at hp
      subst hp
      exact hc
    | cons l2 ls2 =>
      have e : joinPar (l :: l2 :: ls2) = l ++ '\n' :: '\n' :: joinPar (l2 :: ls2) := rfl
      rw [e]
      rcases List.mem_cons.mp hp with rfl | hp
      · exact List.mem_append_left _ hc
      · exact List.mem_append_right _
          (List.mem_cons_of_mem _ (List.mem_cons_of_mem _ (ih hp hc)))

theorem mem_splitPar_subset {cs p : List Char} (hp : p ∈ splitPar cs) :
    ∀ c ∈ p, c ∈ cs := by
  intro c hc
  rw [← joinPar_splitPar cs]
  exact mem_joinPar hp hc

theorem pyStrip_eq_nil_of_all {p : List Char} (h : ∀ c ∈ p, pyIsSpace c = true) :
    pyStrip p = [] := by
  unfold pyStrip
  have : p.dropWhile pyIsSpace = [] := List.dropWhile_eq_nil_iff.mpr h
  rw [this]
  rfl

theorem greedy_allskip (max_chunk_size : Nat) :
    ∀ (ps chunks current : List (List Char)), (∀ p ∈ ps, pyStrip p = []) →
      greedy max_chunk_size ps chunks current = chunks ++ closeChunk current := by
  intro ps
  induction ps with
  | nil => intro chunks current _; rfl
  | cons p ps ih =>
    intro chunks current h
    simp only [greedy]
    rw [if_pos (h p (List.mem_cons_self p ps))]
    exact ih chunks current (fun q hq => h q (List.mem_cons_of_mem p hq))

end Clindoc

namespace Clindoc

/-- C3: the chunks of `chunk_text`, with all whitespace erased, are exactly
a partition of the non-empty stripped paragraphs of the input into
consecutive groups, in original order (so concatenating all chunks modulo
separators and whitespace normalization reproduces the non-empty paragraphs
in order, empty paragraphs are dropped, and no paragraph is split across
chunks); a whitespace-only or empty input produces zero chunks. -/
theorem chunk_text_complete (text : String) (max_chunk_size min_chunk_size : Nat) :
    (∃ groups : List (List (List Char)),
      groups.flatten = strippedPars text.data
      ∧ (chunk_text text max_chunk_size min_chunk_size).map (fun c => squash c.data)
          = groups.map flatSq)
    ∧ ((chunk_text text max_chunk_size min_chunk_size).map
          (fun c => squash c.data)).flatten
        = ((strippedPars text.data).map squash).flatten
    ∧ (text.data.all pyIsSpace = true →
        chunk_text text max_chunk_size min_chunk_size = []) := by
  have hmapdata : ∀ L : List (List Char),
      (L.map String.mk).map (fun c : String => squash c.data) = L.map squash := by
    intro L
    rw [List.map_map]
    rfl
  have hmain : ∃ groups : List (List (List Char)),
      groups.flatten = strippedPars text.data
      ∧ (chunkTextL text.data max_chunk_size min_chunk_size).map squash
          = groups.map flatSq := by
    obtain ⟨gs, h1, h2⟩ := greedy_groups max_chunk_size (splitPar text.data) [] [] []
      (by simp) (by simp)
    simp only [List.flatten_nil, List.nil_append] at h2
    have h2' : gs.flatten = strippedPars text.data := h2
    unfold chunkTextL
    by_cases hmin : 0 < min_chunk_size
    · rw [if_pos hmin]
      obtain ⟨gout, h3, h4⟩ := merge_groups max_chunk_size min_chunk_size
        (greedy max_chunk_size (splitPar text.data) [] []) gs [] [] (by simp) h1
      refine ⟨gout.reverse, ?_, ?_⟩
      · rw [h4]
        simpa using h2'
      · unfold mergeSmall
        rw [List.map_reverse, h3, List.map_reverse]
    · rw [if_neg hmin]
      exact ⟨gs, h2', h1⟩
  obtain ⟨groups, hg1, hg2⟩ := hmain
  have hcc : (chunk_text text max_chunk_size min_chunk_size).map (fun c => squash c.data)
      = groups.map flatSq := by
    unfold chunk_text
    rw [hmapdata, hg2]
  refine ⟨⟨groups, hg1, hcc⟩, ?_, ?_⟩
  · rw [hcc, flatten_map_flatSq, hg1]
  · intro hws
    have hall : ∀ p ∈ splitPar text.data, pyStrip p = [] := by
      intro p hp
      apply pyStrip_eq_nil_of_all
      intro c hc
      exact List.all_eq_true.mp hws c (mem_splitPar_subset hp c hc)
    unfold chunk_text chunkTextL
    rw [greedy_allskip max_chunk_size (splitPar text.data) [] [] hall]
    by_cases hmin : 0 < min_chunk_size
    · rw [if_pos hmin]; rfl
    · rw [if_neg hmin]; rfl

theorem chunk_text_complete_witness :
    chunk_text "  \n\n \t " 1000 300 = [] :=
  (chunk_text_complete "  \n\n \t " 1000 300).2.2 (by decide)

end Clindoc

namespace Clindoc

/-! ## RAG retrieval (src/app/services/rag_retrieval.py)

Rows of the two tables involved, with only the columns the queries touch.
`ORDER BY order_index` leaves ties unordered in SQL; the embedding refines
it to a stable insertion sort on `order_index`. -/

/-- A `source_documents` row (columns used by retrieval and ingestion). -/
structure SourceDocument where
  id : Nat
  study_id : Nat
  type : String
  storage_path : String
  language : String
  index_status : String
deriving Repr, DecidableEq

/-- A `rag_chunks` row (the autoincrement id plays no role in the claims). -/
structure RagChunk where
  study_id : Nat
  source_document_id : Option Nat
  source_type : String
  order_index : Nat
  text : String
deriving Repr, DecidableEq

/-- The persistent store seen by retrieval. -/
structure RagDB where
  sources : List SourceDocument
  chunks : List RagChunk
deriving Repr, DecidableEq

/-- `ORDER BY RagChunk.order_index` (ascending, stable). -/
def sortByOrder (l : List RagChunk) : List RagChunk :=
  l.insertionSort (fun a b => a.order_index ≤ b.order_index)

/-- `WHERE RagChunk.study_id = :study AND RagChunk.source_type = :stype`. -/
def chunksForStudyType (db : RagDB) (study_id : Nat) (stype : String) : List RagChunk :=
  db.chunks.filter (fun c => c.study_id == study_id && c.source_type == stype)

/-- `JOIN SourceDocument ON RagChunk.source_document_id = SourceDocument.id
WHERE SourceDocument.language = :lang` (ids assumed unique, so the join is an
existence check). -/
def sourceLangMatches (db : RagDB) (c : RagChunk) (lang : String) : Bool :=
  db.sources.any (fun d => some d.id == c.source_document_id && d.language == lang)

/-- The language-restricted query with `ORDER BY ... LIMIT`. -/
def langQuery (db : RagDB) (study_id : Nat) (stype lang : String)
    (limit_per_source : Nat) : List RagChunk :=
  (sortByOrder ((chunksForStudyType db study_id stype).filter
    (fun c => sourceLangMatches db c lang))).take limit_per_source

/-- The unrestricted query with `ORDER BY ... LIMIT`. -/
def allQuery (db : RagDB) (study_id : Nat) (stype : String)
    (limit_per_source : Nat) : List RagChunk :=
  (sortByOrder (chunksForStudyType db study_id stype)).take limit_per_source

/-- The per-source-type body of `retrieve_rag_chunks`: restricted query
first, unrestricted fallback when it returns zero chunks. -/
def retrieveFor (db : RagDB) (study_id : Nat) (stype : String)
    (limit_per_source : Nat) (content_language : Option String) : List RagChunk :=
  if truthy content_language ∧ isRuEn (content_language.getD "") then
    if (langQuery db study_id stype (content_language.getD "") limit_per_source).isEmpty
    then allQuery db study_id stype limit_per_source
    else langQuery db study_id stype (content_language.getD "") limit_per_source
  else allQuery db study_id stype limit_per_source

/-- Embedding of `retrieve_rag_chunks`: one entry per requested source type
(default all four). -/
def retrieve_rag_chunks (db : RagDB) (study_id : Nat)
    (source_types : Option (List String)) (limit_per_source : Nat)
    (content_language : Option String) : List (String × List RagChunk) :=
  (source_types.getD ["protocol", "sap", "tlf", "csr_prev"]).map
    (fun stype => (stype, retrieveFor db study_id stype limit_per_source content_language))

instance : IsTotal RagChunk (fun a b => a.order_index ≤ b.order_index) :=
  ⟨fun a b => Nat.le_total a.order_index b.order_index⟩

instance : IsTrans RagChunk (fun a b => a.order_index ≤ b.order_index) :=
  ⟨fun _ _ _ => Nat.le_trans⟩

theorem sortByOrder_perm (l : List RagChunk) : (sortByOrder l).Perm l :=
  List.perm_insertionSort _ l

theorem sortByOrder_sorted (l : List RagChunk) :
    (sortByOrder l).Sorted (fun a b => a.order_index ≤ b.order_index) :=
  List.sorted_insertionSort _ l

theorem sortByOrder_ne_nil {l : List RagChunk} (h : l ≠ []) : sortByOrder l ≠ [] := by
  intro hnil
  have hlen := (sortByOrder_perm l).length_eq
  rw [hnil] at hlen
  exact h (List.eq_nil_of_length_eq_zero hlen.symm)

end Clindoc

namespace Clindoc

/-- C5: with a preferred language, retrieval per category is the first
`limit_per_source` chunks by ascending `order_index` among chunks whose
owning source document has that language, and falls back to the first
`limit_per_source` chunks of the unrestricted query exactly when the
restricted query is empty; in particular a study whose protocol chunks all
come from English-tagged documents yields those English chunks (non-empty)
for `preferred_language = "ru"`. -/
theorem retrieve_language_fallback :
    (∀ (db : RagDB) (study_id : Nat) (stype lang : String) (limit_per_source : Nat),
      lang = "ru" ∨ lang = "en" →
      retrieveFor db study_id stype limit_per_source (some lang)
        = if langQuery db study_id stype lang limit_per_source = []
          then allQuery db study_id stype limit_per_source
          else langQuery db study_id stype lang limit_per_source)
    ∧ (∀ (db : RagDB) (study_id : Nat) (limit_per_source : Nat),
        (∀ c ∈ chunksForStudyType db study_id "protocol",
          sourceLangMatches db c "en" = true ∧ sourceLangMatches db c "ru" = false) →
        chunksForStudyType db study_id "protocol" ≠ [] →
        0 < limit_per_source →
        retrieveFor db study_id "protocol" limit_per_source (some "ru")
          = allQuery db study_id "protocol" limit_per_source
        ∧ retrieveFor db study_id "protocol" limit_per_source (some "ru") ≠ []
        ∧ ("protocol", retrieveFor db study_id "protocol" limit_per_source (some "ru"))
            ∈ retrieve_rag_chunks db study_id none limit_per_source (some "ru")) := by
  have htier : ∀ (db : RagDB) (study_id : Nat) (stype lang : String)
      (limit_per_source : Nat), lang = "ru" ∨ lang = "en" →
      retrieveFor db study_id stype limit_per_source (some lang)
        = if langQuery db study_id stype lang limit_per_source = []
          then allQuery db study_id stype limit_per_source
          else langQuery db study_id stype lang limit_per_source := by
    intro db study_id stype lang limit_per_source hlang
    have hcond : truthy (some lang) = true ∧ isRuEn (some lang |>.getD "") = true := by
      rcases hlang with rfl | rfl <;> exact ⟨by decide, by decide⟩
    unfold retrieveFor
    rw [if_pos (by simpa using hcond)]
    simp only [Option.getD_some]
    by_cases hq : langQuery db study_id stype lang limit_per_source = []
    · rw [if_pos (by simpa [List.isEmpty_iff] using hq), if_pos hq]
    · rw [if_neg (by simpa [List.isEmpty_iff] using hq), if_neg hq]
  refine ⟨htier, ?_⟩
  intro db study_id limit_per_source hen hne hlim
  have hqnil : langQuery db study_id "protocol" "ru" limit_per_source = [] := by
    unfold langQuery
    have hfil : (chunksForStudyType db study_id "protocol").filter
        (fun c => sourceLangMatches db c "ru") = [] := by
      rw [List.filter_eq_nil_iff]
      intro c hc
      simp [(hen c hc).2]
    rw [hfil]
    simp [sortByOrder, List.insertionSort]
  have heq : retrieveFor db study_id "protocol" limit_per_source (some "ru")
      = allQuery db study_id "protocol" limit_per_source := by
    rw [htier db study_id "protocol" "ru" limit_per_source (Or.inl rfl), if_pos hqnil]
  refine ⟨heq, ?_, ?_⟩
  · rw [heq]
    unfold allQuery
    obtain ⟨c, t, hct⟩ := List.exists_cons_of_ne_nil (sortByOrder_ne_nil hne)
    rw [hct]
    cases limit_per_source with
    | zero => cases hlim
    | succ n => simp
  · simp [retrieve_rag_chunks]

theorem retrieve_language_fallback_witness :
    retrieveFor
      ⟨[⟨1, 1, "protocol", "p.txt", "en", "indexed"⟩],
       [⟨1, some 1, "protocol", 0, "hello"⟩]⟩
      1 "protocol" 5 (some "ru") ≠ [] :=
  (retrieve_language_fallback.2
    ⟨[⟨1, 1, "protocol", "p.txt", "en", "indexed"⟩],
     [⟨1, some 1, "protocol", 0, "hello"⟩]⟩
    1 5 (by decide) (by decide) (by decide)).2.1

end Clindoc

namespace Clindoc

/-! ## QC rule engine (src/app/services/qc_rules.py with qc_config.py,
i18n/messages.py and output_document_defaults.py)

The store is modelled with explicit autoincrement counters; Python set
iteration over the missing codes is refined to the order of
`DEFAULT_CSR_SECTIONS` (the claims are order-insensitive). -/

/-- A `qc_rules` row (columns the engine reads). -/
structure QCRule where
  id : Nat
  code : String
  severity : String
  is_active : Bool
deriving Repr, DecidableEq

/-- A `qc_issues` row (columns the engine writes). -/
structure QCIssue where
  id : Nat
  study_id : Nat
  document_id : Nat
  rule_id : Nat
  severity : String
  status : String
  message : String
deriving Repr, DecidableEq

/-- An `output_documents` row. -/
structure OutputDocument where
  id : Nat
  study_id : Nat
deriving Repr, DecidableEq

/-- An `output_sections` row. -/
structure OutputSection where
  document_id : Nat
  code : String
deriving Repr, DecidableEq

/-- The persistent store seen by the QC engine. -/
structure QCDB where
  rules : List QCRule
  issues : List QCIssue
  documents : List OutputDocument
  sections : List OutputSection
  next_rule_id : Nat
  next_issue_id : Nat
deriving Repr, DecidableEq

/-- `DEFAULT_CSR_SECTIONS` as (code, title) pairs. -/
def DEFAULT_CSR_SECTIONS : List (String × String) :=
  [("SYNOPSIS", "Synopsis"), ("EFFICACY", "Efficacy Results"),
   ("SAFETY", "Safety Results"), ("PK", "Pharmacokinetics"),
   ("DISCUSSION", "Discussion")]

/-- i18n `t("QC_MISSING_SECTION", language, section_title=..., code=...)`:
`t` normalizes to Russian iff the lowercased language starts with "ru"
(anything else, including the empty string, falls back to English). -/
def tQcMissingSection (language section_title code : String) : String :=
  if language.toLower.startsWith "ru" then
    "Отсутствует обязательная секция: " ++ section_title ++ " (" ++ code ++ ")"
  else
    "Missing required section: " ++ section_title ++ " (" ++ code ++ ")"

/-- The per-language configuration returned by `get_qc_rule_config`. -/
structure QcRuleConfig where
  enabled : Bool
  severity : Option String
deriving Repr, DecidableEq

/-- `get_qc_rule_config`: `QC_CONFIG` holds identical settings for "ru" and
"en" and `get_qc_config_for_language` falls back to the "en" block for any
other language, so the result depends only on the rule code; an unmapped
rule code yields the empty config (enabled defaults to true). -/
def get_qc_rule_config (rule_code : String) (language : String) : QcRuleConfig :=
  if rule_code = "REQUIRED_SECTIONS" then { enabled := true, severity := some "warning" }
  else { enabled := true, severity := none }

/-- Embedding of `get_or_create_required_sections_rule`. -/
def get_or_create_required_sections_rule (db : QCDB) : QCDB × QCRule :=
  match db.rules.find? (fun r => r.code == "REQUIRED_SECTIONS") with
  | some rule => (db, rule)
  | none =>
    let rule : QCRule :=
      { id := db.next_rule_id, code := "REQUIRED_SECTIONS",
        severity := "warning", is_active := true }
    ({ db with rules := db.rules ++ [rule], next_rule_id := db.next_rule_id + 1 }, rule)

/-- `severity_map.get(severity_override, rule.severity)` guarded by the
truthiness of the override. -/
def severityFromConfig (rule_severity : String) (override : Option String) : String :=
  match override with
  | none => rule_severity
  | some s =>
    if s = "" then rule_severity
    else if s = "info" then "info"
    else if s = "warning" then "warning"
    else if s = "error" then "error"
    else rule_severity

/-- The document's existing section codes. -/
def existingCodes (db : QCDB) (document_id : Nat) : List String :=
  (db.sections.filter (fun s => s.document_id == document_id)).map (·.code)

/-- `required_codes - existing_codes`, with the title resolved from
`DEFAULT_CSR_SECTIONS`. -/
def missingSections (db : QCDB) (document_id : Nat) : List (String × String) :=
  DEFAULT_CSR_SECTIONS.filter (fun sec => !(existingCodes db document_id).contains sec.1)

/-- Create one open issue per missing section, ids from the autoincrement
counter. -/
def mkIssues (study_id document_id rule_id : Nat) (severity language : String) :
    Nat → List (String × String) → List QCIssue
  | _, [] => []
  | next_id, sec :: rest =>
    { id := next_id, study_id := study_id, document_id := document_id,
      rule_id := rule_id, severity := severity, status := "open",
      message := tQcMissingSection language sec.2 sec.1 }
      :: mkIssues study_id document_id rule_id severity language (next_id + 1) rest

/-- The body of `check_required_sections` after the rule has been obtained:
inactive/disabled or missing document short-circuits; otherwise open issues
for (document, rule) are deleted and fresh ones inserted. -/
def checkWithRule (db1 : QCDB) (rule : QCRule) (document_id study_id : Nat)
    (language : String) : QCDB × List QCIssue :=
  if ¬rule.is_active then (db1, [])
  else if ¬(get_qc_rule_config "REQUIRED_SECTIONS" language).enabled then (db1, [])
  else
    match db1.documents.find? (fun d => d.id == document_id) with
    | none => (db1, [])
    | some _ =>
      let missing := missingSections db1 document_id
      let kept := db1.issues.filter (fun i =>
        !(i.document_id == document_id && i.rule_id == rule.id && i.status == "open"))
      let severity := severityFromConfig rule.severity
        (get_qc_rule_config "REQUIRED_SECTIONS" language).severity
      let newIssues := mkIssues study_id document_id rule.id severity language
        db1.next_issue_id missing
      ({ db1 with issues := kept ++ newIssues,
                  next_issue_id := db1.next_issue_id + missing.length },
       newIssues)

/-- Embedding of `check_required_sections`. -/
def check_required_sections (db : QCDB) (document_id study_id : Nat)
    (language : String) : QCDB × List QCIssue :=
  checkWithRule (get_or_create_required_sections_rule db).1
    (get_or_create_required_sections_rule db).2 document_id study_id language

/-- Embedding of `run_qc_rules_for_document` (the single rule). -/
def run_qc_rules_for_document (db : QCDB) (document_id study_id : Nat)
    (language : String) : QCDB × List QCIssue :=
  check_required_sections db document_id study_id language

end Clindoc

namespace Clindoc

theorem get_or_create_fields (db : QCDB) :
    (get_or_create_required_sections_rule db).1.documents = db.documents
    ∧ (get_or_create_required_sections_rule db).1.sections = db.sections
    ∧ (get_or_create_required_sections_rule db).1.issues = db.issues
    ∧ (get_or_create_required_sections_rule db).1.next_issue_id = db.next_issue_id
    ∧ (get_or_create_required_sections_rule db).2.code = "REQUIRED_SECTIONS"
    ∧ (get_or_create_required_sections_rule db).1.rules.find?
        (fun r => r.code == "REQUIRED_SECTIONS")
        = some (get_or_create_required_sections_rule db).2 := by
  unfold get_or_create_required_sections_rule
  cases hf : db.rules.find? (fun r => r.code == "REQUIRED_SECTIONS") with
  | some rule =>
    refine ⟨rfl, rfl, rfl, rfl, ?_, hf⟩
    have := List.find?_some hf
    simpa using this
  | none =>
    refine ⟨rfl, rfl, rfl, rfl, rfl, ?_⟩
    simp only
    rw [List.find?_append, hf]
    rfl

theorem checkWithRule_preserves (db1 : QCDB) (rule : QCRule)
    (document_id study_id : Nat) (language : String) :
    (checkWithRule db1 rule document_id study_id language).1.rules = db1.rules
    ∧ (checkWithRule db1 rule document_id study_id language).1.documents = db1.documents
    ∧ (checkWithRule db1 rule document_id study_id language).1.sections = db1.sections := by
  unfold checkWithRule
  have hcfg : get_qc_rule_config "REQUIRED_SECTIONS" language
      = ⟨true, some "warning"⟩ := rfl
  by_cases ha : rule.is_active = true
  · rw [if_neg (by simpa using ha), hcfg]
    rw [if_neg (by simp)]
    cases hd : db1.documents.find? (fun d => d.id == document_id) with
    | none => exact ⟨rfl, rfl, rfl⟩
    | some doc => exact ⟨rfl, rfl, rfl⟩
  · rw [if_pos (by simpa using ha)]
    exact ⟨rfl, rfl, rfl⟩

end Clindoc

namespace Clindoc

theorem checkWithRule_inactive (db1 : QCDB) (rule : QCRule)
    (document_id study_id : Nat) (language : String)
    (ha : rule.is_active = false) :
    checkWithRule db1 rule document_id study_id language = (db1, []) := by
  unfold checkWithRule
  rw [if_pos (by simp [ha])]

theorem checkWithRule_nodoc (db1 : QCDB) (rule : QCRule)
    (document_id study_id : Nat) (language : String)
    (ha : rule.is_active = true)
    (hd : db1.documents.find? (fun d => d.id == document_id) = none) :
    checkWithRule db1 rule document_id study_id language = (db1, []) := by
  unfold checkWithRule
  have hcfg : get_qc_rule_config "REQUIRED_SECTIONS" language
      = ⟨true, some "warning"⟩ := rfl
  rw [if_neg (by simpa using ha), hcfg, if_neg (by simp), hd]

theorem severityFromConfig_warning (rs : String) :
    severityFromConfig rs (some "warning") = "warning" := rfl

theorem checkWithRule_found (db1 : QCDB) (rule : QCRule)
    (document_id study_id : Nat) (language : String)
    (ha : rule.is_active = true)
    (hd : (db1.documents.find? (fun d => d.id == document_id)).isSome = true) :
    checkWithRule db1 rule document_id study_id language
      = ({ db1 with
            issues := db1.issues.filter (fun i =>
              !(i.document_id == document_id && i.rule_id == rule.id
                && i.status == "open"))
              ++ mkIssues study_id document_id rule.id "warning" language
                  db1.next_issue_id (missingSections db1 document_id),
            next_issue_id := db1.next_issue_id + (missingSections db1 document_id).length },
         mkIssues study_id document_id rule.id "warning" language
           db1.next_issue_id (missingSections db1 document_id)) := by
  unfold checkWithRule
  have hcfg : get_qc_rule_config "REQUIRED_SECTIONS" language
      = ⟨true, some "warning"⟩ := rfl
  rw [if_neg (by simpa using ha), hcfg, if_neg (by simp)]
  obtain ⟨doc, hd'⟩ := Option.isSome_iff_exists.mp hd
  rw [hd']
  rfl

theorem mkIssues_proj (study_id document_id rule_id : Nat) (sev language : String) :
    ∀ (missing : List (String × String)) (next_id : Nat),
      (mkIssues study_id document_id rule_id sev language next_id missing).map
        (fun i => (i.message, i.status, i.severity, i.document_id, i.study_id, i.rule_id))
      = missing.map (fun sec =>
          (tQcMissingSection language sec.2 sec.1, "open", sev,
           document_id, study_id, rule_id)) := by
  intro missing
  induction missing with
  | nil => intro next_id; rfl
  | cons sec rest ih =>
    intro next_id
    simp only [mkIssues, List.map_cons, ih (next_id + 1)]

theorem mkIssues_length (study_id document_id rule_id : Nat) (sev language : String) :
    ∀ (missing : List (String × String)) (next_id : Nat),
      (mkIssues study_id document_id rule_id sev language next_id missing).length
        = missing.length := by
  intro missing
  induction missing with
  | nil => intro next_id; rfl
  | cons sec rest ih =>
    intro next_id
    simp only [mkIssues, List.length_cons, ih (next_id + 1)]

theorem mkIssues_id_bounds (study_id document_id rule_id : Nat) (sev language : String) :
    ∀ (missing : List (String × String)) (next_id : Nat),
      ∀ i ∈ mkIssues study_id document_id rule_id sev language next_id missing,
        next_id ≤ i.id ∧ i.id < next_id + missing.length := by
  intro missing
  induction missing with
  | nil => intro next_id i hi; cases hi
  | cons sec rest ih =>
    intro next_id i hi
    rcases List.mem_cons.mp hi with rfl | hi
    · simp only [List.length_cons]
      omega
    · have := ih (next_id + 1) i hi
      simp only [List.length_cons]
      omega

theorem missingSections_congr {db1 db2 : QCDB} (h : db1.sections = db2.sections)
    (document_id : Nat) :
    missingSections db1 document_id = missingSections db2 document_id := by
  unfold missingSections existingCodes
  rw [h]

theorem tQc_inj_on_default (language : String) :
    ∀ s1 ∈ DEFAULT_CSR_SECTIONS, ∀ s2 ∈ DEFAULT_CSR_SECTIONS,
      tQcMissingSection language s1.2 s1.1 = tQcMissingSection language s2.2 s2.1 →
      s1 = s2 := by
  intro s1 hs1 s2 hs2
  simp only [DEFAULT_CSR_SECTIONS, List.mem_cons, List.mem_singleton,
    List.not_mem_nil, or_false] at hs1 hs2
  by_cases hru : language.toLower.startsWith "ru" = true
  · simp only [tQcMissingSection, if_pos hru]
    rcases hs1 with rfl | rfl | rfl | rfl | rfl <;>
      rcases hs2 with rfl | rfl | rfl | rfl | rfl <;>
      intro h <;>
      first
      | rfl
      | exact absurd h (by decide)
  · simp only [tQcMissingSection, if_neg hru]
    rcases hs1 with rfl | rfl | rfl | rfl | rfl <;>
      rcases hs2 with rfl | rfl | rfl | rfl | rfl <;>
      intro h <;>
      first
      | rfl
      | exact absurd h (by decide)

end Clindoc

namespace Clindoc

theorem mkIssues_msgs (study_id document_id rule_id : Nat) (sev language : String) :
    ∀ (missing : List (String × String)) (next_id : Nat),
      (mkIssues study_id document_id rule_id sev language next_id missing).map (·.message)
        = missing.map (fun sec => tQcMissingSection language sec.2 sec.1) := by
  intro missing
  induction missing with
  | nil => intro next_id; rfl
  | cons sec rest ih =>
    intro next_id
    simp only [mkIssues, List.map_cons, ih (next_id + 1)]

theorem mem_missingSections {db : QCDB} {document_id : Nat} {sec : String × String} :
    sec ∈ missingSections db document_id
      ↔ sec ∈ DEFAULT_CSR_SECTIONS ∧ sec.1 ∉ existingCodes db document_id := by
  unfold missingSections
  rw [List.mem_filter]
  simp

theorem missingSections_nodup (db : QCDB) (document_id : Nat) :
    (missingSections db document_id).Nodup :=
  (by decide : DEFAULT_CSR_SECTIONS.Nodup).filter _

theorem missing_msgs_nodup (db : QCDB) (document_id : Nat) (language : String) :
    ((missingSections db document_id).map
      (fun sec => tQcMissingSection language sec.2 sec.1)).Nodup := by
  refine (missingSections_nodup db document_id).map_on ?_
  intro x hx y hy h
  exact tQc_inj_on_default language x (mem_missingSections.mp hx).1
    y (mem_missingSections.mp hy).1 h

theorem mkIssues_count_eq (study_id document_id rule_id : Nat) (language : String)
    (db : QCDB) (next_id : Nat) (m : String) :
    ((mkIssues study_id document_id rule_id "warning" language next_id
        (missingSections db document_id)).filter
      (fun i => i.message == m)).length
    = ((missingSections db document_id).map
        (fun sec => tQcMissingSection language sec.2 sec.1)).count m := by
  calc ((mkIssues study_id document_id rule_id "warning" language next_id
          (missingSections db document_id)).filter (fun i => i.message == m)).length
      = (mkIssues study_id document_id rule_id "warning" language next_id
          (missingSections db document_id)).countP (fun i => i.message == m) :=
        (List.countP_eq_length_filter _ _).symm
    _ = ((mkIssues study_id document_id rule_id "warning" language next_id
          (missingSections db document_id)).map (·.message)).countP
            (fun s => s == m) := by
        rw [List.countP_map]
        rfl
    _ = ((missingSections db document_id).map
          (fun sec => tQcMissingSection language sec.2 sec.1)).countP
            (fun s => s == m) := by
        rw [mkIssues_msgs]
    _ = ((missingSections db document_id).map
          (fun sec => tQcMissingSection language sec.2 sec.1)).count m := rfl

theorem mkIssues_counts (study_id document_id rule_id : Nat) (language : String)
    (db : QCDB) (next_id : Nat) :
    (∀ sec ∈ DEFAULT_CSR_SECTIONS, sec.1 ∉ existingCodes db document_id →
      ((mkIssues study_id document_id rule_id "warning" language next_id
          (missingSections db document_id)).filter
        (fun i => i.message == tQcMissingSection language sec.2 sec.1)).length = 1)
    ∧ (∀ sec ∈ DEFAULT_CSR_SECTIONS, sec.1 ∈ existingCodes db document_id →
      ((mkIssues study_id document_id rule_id "warning" language next_id
          (missingSections db document_id)).filter
        (fun i => i.message == tQcMissingSection language sec.2 sec.1)).length = 0) := by
  constructor
  · intro sec hsec hnotin
    rw [mkIssues_count_eq]
    refine List.count_eq_one_of_mem (missing_msgs_nodup db document_id language) ?_
    exact List.mem_map.mpr ⟨sec, mem_missingSections.mpr ⟨hsec, hnotin⟩, rfl⟩
  · intro sec hsec hin
    rw [mkIssues_count_eq]
    refine List.count_eq_zero.mpr ?_
    intro hmem
    obtain ⟨sec2, hsec2, heq⟩ := List.mem_map.mp hmem
    have : sec2 = sec :=
      tQc_inj_on_default language sec2 (mem_missingSections.mp hsec2).1 sec hsec heq
    subst this
    exact (mem_missingSections.mp hsec2).2 hin

end Clindoc

namespace Clindoc

/-- C6: for an existing document, `run_qc` creates exactly one open issue
per missing required section code (the five `DEFAULT_CSR_SECTIONS` codes
minus the document's existing codes) and none for present codes, each with
the language-localized "Missing required section" message carrying the
section title and code (severity "warning"). -/
theorem run_qc_creates_missing_section_issues (db : QCDB)
    (document_id study_id : Nat) (language : String)
    (hactive : (get_or_create_required_sections_rule db).2.is_active = true)
    (hdoc : (db.documents.find? (fun d => d.id == document_id)).isSome = true) :
    (run_qc_rules_for_document db document_id study_id language).2.map
        (fun i => (i.message, i.status, i.severity, i.document_id, i.study_id, i.rule_id))
      = (missingSections db document_id).map
          (fun sec => (tQcMissingSection language sec.2 sec.1, "open", "warning",
            document_id, study_id, (get_or_create_required_sections_rule db).2.id))
    ∧ (∀ sec, sec ∈ missingSections db document_id
        ↔ sec ∈ DEFAULT_CSR_SECTIONS ∧ sec.1 ∉ existingCodes db document_id)
    ∧ (run_qc_rules_for_document db document_id study_id language).2.length
        = (missingSections db document_id).length
    ∧ (∀ sec ∈ DEFAULT_CSR_SECTIONS, sec.1 ∉ existingCodes db document_id →
        ((run_qc_rules_for_document db document_id study_id language).2.filter
          (fun i => i.message == tQcMissingSection language sec.2 sec.1)).length = 1)
    ∧ (∀ sec ∈ DEFAULT_CSR_SECTIONS, sec.1 ∈ existingCodes db document_id →
        ((run_qc_rules_for_document db document_id study_id language).2.filter
          (fun i => i.message == tQcMissingSection language sec.2 sec.1)).length = 0) := by
  have hg := get_or_create_fields db
  have hdoc1 : ((get_or_create_required_sections_rule db).1.documents.find?
      (fun d => d.id == document_id)).isSome = true := by
    rw [hg.1]; exact hdoc
  have hcheck := checkWithRule_found (get_or_create_required_sections_rule db).1
    (get_or_create_required_sections_rule db).2 document_id study_id language
    hactive hdoc1
  have hrun : (run_qc_rules_for_document db document_id study_id language).2
      = mkIssues study_id document_id (get_or_create_required_sections_rule db).2.id
          "warning" language (get_or_create_required_sections_rule db).1.next_issue_id
          (missingSections (get_or_create_required_sections_rule db).1 document_id) := by
    unfold run_qc_rules_for_document check_required_sections
    rw [hcheck]
  have hms : missingSections (get_or_create_required_sections_rule db).1 document_id
      = missingSections db document_id := missingSections_congr hg.2.1 document_id
  have hcounts := mkIssues_counts study_id document_id
    (get_or_create_required_sections_rule db).2.id language db
    (get_or_create_required_sections_rule db).1.next_issue_id
  refine ⟨?_, fun sec => mem_missingSections, ?_, ?_, ?_⟩
  · rw [hrun, hms, mkIssues_proj]
  · rw [hrun, hms, mkIssues_length]
  · intro sec hsec hnotin
    rw [hrun, hms]
    exact hcounts.1 sec hsec hnotin
  · intro sec hsec hin
    rw [hrun, hms]
    exact hcounts.2 sec hsec hin

theorem run_qc_creates_missing_section_issues_witness :
    (run_qc_rules_for_document
      ⟨[], [], [⟨1, 1⟩], [⟨1, "SYNOPSIS"⟩, ⟨1, "EFFICACY"⟩], 1, 1⟩
      1 1 "en").2.length = 3 :=
  (run_qc_creates_missing_section_issues
    ⟨[], [], [⟨1, 1⟩], [⟨1, "SYNOPSIS"⟩, ⟨1, "EFFICACY"⟩], 1, 1⟩
    1 1 "en" (by decide) (by decide)).2.2.1.trans (by decide)

end Clindoc

namespace Clindoc

theorem get_or_create_of_found {db : QCDB} {r : QCRule}
    (h : db.rules.find? (fun r => r.code == "REQUIRED_SECTIONS") = some r) :
    get_or_create_required_sections_rule db = (db, r) := by
  unfold get_or_create_required_sections_rule
  rw [h]

theorem mkIssues_fields (study_id document_id rule_id : Nat) (sev language : String) :
    ∀ (missing : List (String × String)) (next_id : Nat),
      ∀ i ∈ mkIssues study_id document_id rule_id sev language next_id missing,
        i.document_id = document_id ∧ i.rule_id = rule_id ∧ i.status = "open" := by
  intro missing
  induction missing with
  | nil => intro next_id i hi; cases hi
  | cons sec rest ih =>
    intro next_id i hi
    rcases List.mem_cons.mp hi with rfl | hi
    · exact ⟨rfl, rfl, rfl⟩
    · exact ih (next_id + 1) i hi

/-- C10: running QC for a document id with no output document returns no
issues and leaves the issue store untouched (the existence check precedes
the delete-then-insert reconciliation); only the lazily created rule row may
be added. -/
theorem run_qc_no_document (db : QCDB) (document_id study_id : Nat) (language : String)
    (hdoc : db.documents.find? (fun d => d.id == document_id) = none) :
    (run_qc_rules_for_document db document_id study_id language).2 = []
    ∧ (run_qc_rules_for_document db document_id study_id language).1.issues
        = db.issues := by
  have hg := get_or_create_fields db
  have hdoc1 : (get_or_create_required_sections_rule db).1.documents.find?
      (fun d => d.id == document_id) = none := by
    rw [hg.1]; exact hdoc
  by_cases ha : (get_or_create_required_sections_rule db).2.is_active = true
  · have hc := checkWithRule_nodoc (get_or_create_required_sections_rule db).1
      (get_or_create_required_sections_rule db).2 document_id study_id language ha hdoc1
    unfold run_qc_rules_for_document check_required_sections
    rw [hc]
    exact ⟨rfl, hg.2.2.1⟩
  · have hfalse : (get_or_create_required_sections_rule db).2.is_active = false := by
      simpa using ha
    have hc := checkWithRule_inactive (get_or_create_required_sections_rule db).1
      (get_or_create_required_sections_rule db).2 document_id study_id language hfalse
    unfold run_qc_rules_for_document check_required_sections
    rw [hc]
    exact ⟨rfl, hg.2.2.1⟩

theorem run_qc_no_document_witness :
    (run_qc_rules_for_document ⟨[], [], [], [], 1, 1⟩ 7 1 "en").2 = []
    ∧ (run_qc_rules_for_document ⟨[], [], [], [], 1, 1⟩ 7 1 "en").1.issues = [] :=
  run_qc_no_document ⟨[], [], [], [], 1, 1⟩ 7 1 "en" (by decide)

end Clindoc

namespace Clindoc

/-- C7: running QC twice in a row with no changes to the document's sections
yields the same list of open-issue messages both times, while the issue row
ids of the two runs are disjoint and none of the first run's issue rows
survives in the store after the second run (they are deleted before the
second run's inserts). -/
theorem run_qc_rerun_idempotent (db : QCDB) (document_id study_id : Nat)
    (language : String) :
    (run_qc_rules_for_document db document_id study_id language).2.map (·.message)
      = (run_qc_rules_for_document
          (run_qc_rules_for_document db document_id study_id language).1
          document_id study_id language).2.map (·.message)
    ∧ (∀ i1 ∈ (run_qc_rules_for_document db document_id study_id language).2,
        ∀ i2 ∈ (run_qc_rules_for_document
            (run_qc_rules_for_document db document_id study_id language).1
            document_id study_id language).2, i1.id ≠ i2.id)
    ∧ (∀ i1 ∈ (run_qc_rules_for_document db document_id study_id language).2,
        i1 ∉ (run_qc_rules_for_document
            (run_qc_rules_for_document db document_id study_id language).1
            document_id study_id language).1.issues) := by
  have hg := get_or_create_fields db
  have hfound1 := hg.2.2.2.2.2
  by_cases ha : (get_or_create_required_sections_rule db).2.is_active = true
  · cases hfind : (get_or_create_required_sections_rule db).1.documents.find?
        (fun d => d.id == document_id) with
    | none =>
      have hc := checkWithRule_nodoc (get_or_create_required_sections_rule db).1
        (get_or_create_required_sections_rule db).2 document_id study_id language
        ha hfind
      have h1 : run_qc_rules_for_document db document_id study_id language
          = ((get_or_create_required_sections_rule db).1, []) := by
        unfold run_qc_rules_for_document check_required_sections
        exact hc
      have h2 : run_qc_rules_for_document
          (get_or_create_required_sections_rule db).1 document_id study_id language
          = ((get_or_create_required_sections_rule db).1, []) := by
        unfold run_qc_rules_for_document check_required_sections
        rw [get_or_create_of_found hfound1]
        exact hc
      rw [h1]
      rw [show ((get_or_create_required_sections_rule db).1,
        ([] : List QCIssue)).1 = (get_or_create_required_sections_rule db).1 from rfl]
      rw [h2]
      refine ⟨rfl, ?_, ?_⟩
      · intro i1 hi1
        simp at hi1
      · intro i1 hi1
        simp at hi1
    | some doc =>
      have hs1 : ((get_or_create_required_sections_rule db).1.documents.find?
          (fun d => d.id == document_id)).isSome = true := by
        rw [hfind]; rfl
      have hcheck1 := checkWithRule_found (get_or_create_required_sections_rule db).1
        (get_or_create_required_sections_rule db).2 document_id study_id language ha hs1
      have hr1_2 : (run_qc_rules_for_document db document_id study_id language).2
          = mkIssues study_id document_id (get_or_create_required_sections_rule db).2.id
              "warning" language (get_or_create_required_sections_rule db).1.next_issue_id
              (missingSections (get_or_create_required_sections_rule db).1 document_id) := by
        unfold run_qc_rules_for_document check_required_sections
        rw [hcheck1]
      have hr1_rules : (run_qc_rules_for_document db document_id study_id language).1.rules
          = (get_or_create_required_sections_rule db).1.rules := by
        unfold run_qc_rules_for_document check_required_sections
        rw [hcheck1]
      have hr1_docs : (run_qc_rules_for_document db document_id study_id language).1.documents
          = (get_or_create_required_sections_rule db).1.documents := by
        unfold run_qc_rules_for_document check_required_sections
        rw [hcheck1]
      have hr1_sections : (run_qc_rules_for_document db document_id study_id language).1.sections
          = (get_or_create_required_sections_rule db).1.sections := by
        unfold run_qc_rules_for_document check_required_sections
        rw [hcheck1]
      have hr1_next : (run_qc_rules_for_document db document_id study_id language).1.next_issue_id
          = (get_or_create_required_sections_rule db).1.next_issue_id
            + (missingSections (get_or_create_required_sections_rule db).1 document_id).length := by
        unfold run_qc_rules_for_document check_required_sections
        rw [hcheck1]
      have hfound2 : (run_qc_rules_for_document db document_id study_id language).1.rules.find?
          (fun r => r.code == "REQUIRED_SECTIONS")
          = some (get_or_create_required_sections_rule db).2 := by
        rw [hr1_rules]; exact hfound1
      have hg2 := get_or_create_of_found hfound2
      have hdoc2 : (run_qc_rules_for_document db document_id study_id language).1.documents.find?
          (fun d => d.id == document_id) = some doc := by
        rw [hr1_docs]; exact hfind
      have hs2 : ((run_qc_rules_for_document db document_id study_id language).1.documents.find?
          (fun d => d.id == document_id)).isSome = true := by
        rw [hdoc2]; rfl
      have hcheck2 := checkWithRule_found
        (run_qc_rules_for_document db document_id study_id language).1
        (get_or_create_required_sections_rule db).2 document_id study_id language ha hs2
      have hrun2 : run_qc_rules_for_document
          (run_qc_rules_for_document db document_id study_id language).1
          document_id study_id language
          = checkWithRule (run_qc_rules_for_document db document_id study_id language).1
              (get_or_create_required_sections_rule db).2 document_id study_id language := by
        have e : run_qc_rules_for_document
            (run_qc_rules_for_document db document_id study_id language).1
            document_id study_id language
            = checkWithRule
                (get_or_create_required_sections_rule
                  (run_qc_rules_for_document db document_id study_id language).1).1
                (get_or_create_required_sections_rule
                  (run_qc_rules_for_document db document_id study_id language).1).2
                document_id study_id language := rfl
        rw [e, hg2]
      have hms2 : missingSections
          (run_qc_rules_for_document db document_id study_id language).1 document_id
          = missingSections (get_or_create_required_sections_rule db).1 document_id :=
        missingSections_congr hr1_sections document_id
      have hr2_2 : (run_qc_rules_for_document
          (run_qc_rules_for_document db document_id study_id language).1
          document_id study_id language).2
          = mkIssues study_id document_id (get_or_create_required_sections_rule db).2.id
              "warning" language
              (run_qc_rules_for_document db document_id study_id language).1.next_issue_id
              (missingSections
                (run_qc_rules_for_document db document_id study_id language).1 document_id) := by
        rw [hrun2, hcheck2]
      have hr2_issues : (run_qc_rules_for_document
          (run_qc_rules_for_document db document_id study_id language).1
          document_id study_id language).1.issues
          = (run_qc_rules_for_document db document_id study_id language).1.issues.filter
              (fun i => !(i.document_id == document_id
                && i.rule_id == (get_or_create_required_sections_rule db).2.id
                && i.status == "open"))
            ++ mkIssues study_id document_id (get_or_create_required_sections_rule db).2.id
                "warning" language
                (run_qc_rules_for_document db document_id study_id language).1.next_issue_id
                (missingSections
                  (run_qc_rules_for_document db document_id study_id language).1 document_id) := by
        rw [hrun2, hcheck2]
      refine ⟨?_, ?_, ?_⟩
      · rw [hr1_2, hr2_2, hms2, mkIssues_msgs, mkIssues_msgs]
      · intro i1 hi1 i2 hi2
        rw [hr1_2] at hi1
        rw [hr2_2, hms2] at hi2
        have b1 := mkIssues_id_bounds study_id document_id
          (get_or_create_required_sections_rule db).2.id "warning" language _ _ i1 hi1
        have b2 := mkIssues_id_bounds study_id document_id
          (get_or_create_required_sections_rule db).2.id "warning" language _ _ i2 hi2
        rw [hr1_next] at b2
        omega
      · intro i1 hi1 hmem
        rw [hr1_2] at hi1
        rw [hr2_issues] at hmem
        have hfields := mkIssues_fields study_id document_id
          (get_or_create_required_sections_rule db).2.id "warning" language _ _ i1 hi1
        rcases List.mem_append.mp hmem with hmem | hmem
        · have hpred := (List.mem_filter.mp hmem).2
          simp [hfields.1, hfields.2.1, hfields.2.2] at hpred
        · rw [hms2] at hmem
          have b1 := mkIssues_id_bounds study_id document_id
            (get_or_create_required_sections_rule db).2.id "warning" language _ _ i1 hi1
          have b2 := mkIssues_id_bounds study_id document_id
            (get_or_create_required_sections_rule db).2.id "warning" language _ _ i1 hmem
          rw [hr1_next] at b2
          omega
  · have hfalse : (get_or_create_required_sections_rule db).2.is_active = false := by
      simpa using ha
    have hc := checkWithRule_inactive (get_or_create_required_sections_rule db).1
      (get_or_create_required_sections_rule db).2 document_id study_id language hfalse
    have h1 : run_qc_rules_for_document db document_id study_id language
        = ((get_or_create_required_sections_rule db).1, []) := by
      unfold run_qc_rules_for_document check_required_sections
      exact hc
    have h2 : run_qc_rules_for_document
        (get_or_create_required_sections_rule db).1 document_id study_id language
        = ((get_or_create_required_sections_rule db).1, []) := by
      unfold run_qc_rules_for_document check_required_sections
      rw [get_or_create_of_found hfound1]
      exact hc
    rw [h1]
    rw [show ((get_or_create_required_sections_rule db).1,
      ([] : List QCIssue)).1 = (get_or_create_required_sections_rule db).1 from rfl]
    rw [h2]
    refine ⟨rfl, ?_, ?_⟩
    · intro i1 hi1
      simp at hi1
    · intro i1 hi1
      simp at hi1

end Clindoc

namespace Clindoc

/-! ## RAG ingestion (src/app/services/rag_ingest.py)

The filesystem plus text extractor are modelled as a partial map from
storage path to extracted text; `none` models `extract_text_from_file`
raising.  The raised Python `ValueError(f"SourceDocument with id ... not
found")` is the spec's `NotFoundError`; a propagated extraction error is
`ExtractionError`. -/

inductive IngestError where
  | notFound : Nat → IngestError
  | extraction : String → IngestError
deriving Repr, DecidableEq

/-- The body of ingestion once the source document row has been loaded. -/
def ingestWithSource (db : RagDB) (fs : String → Option String)
    (source_document_id : Nat) (source : SourceDocument) :
    RagDB × Except IngestError Nat :=
  match fs source.storage_path with
  | none =>
    ({ db with sources := db.sources.map (fun s =>
        if s.id == source_document_id then { s with index_status := "error" } else s) },
     Except.error (IngestError.extraction source.storage_path))
  | some text =>
    let chunks := chunk_text text 1000 300
    let kept := db.chunks.filter
      (fun c => !(c.source_document_id == some source_document_id))
    let newChunks := chunks.enum.map (fun p =>
      { study_id := source.study_id, source_document_id := some source.id,
        source_type := source.type, order_index := p.1, text := p.2 : RagChunk })
    ({ db with
        sources := db.sources.map (fun s =>
          if s.id == source_document_id then { s with index_status := "indexed" } else s),
        chunks := kept ++ newChunks },
     Except.ok newChunks.length)

/-- Embedding of `ingest_source_document_to_rag`: returns the committed
store and either the chunk count or the raised error. -/
def ingest_source_document_to_rag (db : RagDB) (fs : String → Option String)
    (source_document_id : Nat) : RagDB × Except IngestError Nat :=
  match db.sources.find? (fun s => s.id == source_document_id) with
  | none => (db, Except.error (IngestError.notFound source_document_id))
  | some source => ingestWithSource db fs source_document_id source

end Clindoc

namespace Clindoc

/-- C8: ingestion raises not-found for an unknown source document id (store
untouched); a failed extraction propagates the error after setting the
document's indexing status to "error"; success sets the status to "indexed",
returns the chunk count, and the document's stored chunks carry sequential
`order_index` values 0,1,2,…. -/
theorem ingest_error_and_success_behaviour (db : RagDB) (fs : String → Option String)
    (source_document_id : Nat) :
    (db.sources.find? (fun s => s.id == source_document_id) = none →
      ingest_source_document_to_rag db fs source_document_id
        = (db, Except.error (IngestError.notFound source_document_id)))
    ∧ (∀ source, db.sources.find? (fun s => s.id == source_document_id) = some source →
        fs source.storage_path = none →
        (ingest_source_document_to_rag db fs source_document_id).2
            = Except.error (IngestError.extraction source.storage_path)
        ∧ (ingest_source_document_to_rag db fs source_document_id).1.sources
            = db.sources.map (fun s =>
                if s.id == source_document_id then { s with index_status := "error" }
                else s))
    ∧ (∀ source text,
        db.sources.find? (fun s => s.id == source_document_id) = some source →
        fs source.storage_path = some text →
        (ingest_source_document_to_rag db fs source_document_id).2
            = Except.ok (chunk_text text 1000 300).length
        ∧ (ingest_source_document_to_rag db fs source_document_id).1.sources
            = db.sources.map (fun s =>
                if s.id == source_document_id then { s with index_status := "indexed" }
                else s)
        ∧ ((ingest_source_document_to_rag db fs source_document_id).1.chunks.filter
              (fun c => c.source_document_id == some source_document_id)).map
                (·.order_index)
            = List.range (chunk_text text 1000 300).length) := by
  refine ⟨?_, ?_, ?_⟩
  · intro hfind
    unfold ingest_source_document_to_rag
    rw [hfind]
  · intro source hfind hext
    have e1 : ingest_source_document_to_rag db fs source_document_id
        = ingestWithSource db fs source_document_id source := by
      unfold ingest_source_document_to_rag
      rw [hfind]
    rw [e1]
    unfold ingestWithSource
    rw [hext]
    exact ⟨rfl, rfl⟩
  · intro source text hfind hext
    have hsid : source.id = source_document_id := by
      have := List.find?_some hfind
      simpa using this
    have e1 : ingest_source_document_to_rag db fs source_document_id
        = ingestWithSource db fs source_document_id source := by
      unfold ingest_source_document_to_rag
      rw [hfind]
    rw [e1]
    unfold ingestWithSource
    rw [hext]
    refine ⟨?_, rfl, ?_⟩
    · show Except.ok ((chunk_text text 1000 300).enum.map _).length
        = Except.ok (chunk_text text 1000 300).length
      rw [List.length_map, List.enum_length]
    · show ((db.chunks.filter (fun c => !(c.source_document_id == some source_document_id))
          ++ (chunk_text text 1000 300).enum.map (fun p =>
            { study_id := source.study_id, source_document_id := some source.id,
              source_type := source.type, order_index := p.1, text := p.2 : RagChunk })).filter
          (fun c => c.source_document_id == some source_document_id)).map (·.order_index)
        = List.range (chunk_text text 1000 300).length
      rw [List.filter_append]
      have hkept : (db.chunks.filter
          (fun c => !(c.source_document_id == some source_document_id))).filter
          (fun c => c.source_document_id == some source_document_id) = [] := by
        rw [List.filter_eq_nil_iff]
        intro c hc
        have := (List.mem_filter.mp hc).2
        simp only [Bool.not_eq_true'] at this
        simp [this]
      have hnew : ((chunk_text text 1000 300).enum.map (fun p =>
          { study_id := source.study_id, source_document_id := some source.id,
            source_type := source.type, order_index := p.1, text := p.2 : RagChunk })).filter
          (fun c => c.source_document_id == some source_document_id)
          = (chunk_text text 1000 300).enum.map (fun p =>
            { study_id := source.study_id, source_document_id := some source.id,
              source_type := source.type, order_index := p.1, text := p.2 : RagChunk }) := by
        rw [List.filter_eq_self]
        intro c hc
        obtain ⟨p, _, rfl⟩ := List.mem_map.mp hc
        simp [hsid]
      rw [hkept, hnew, List.nil_append, List.map_map]
      have : ((fun i : RagChunk => i.order_index) ∘ (fun p : Nat × String =>
          { study_id := source.study_id, source_document_id := some source.id,
            source_type := source.type, order_index := p.1, text := p.2 : RagChunk }))
          = Prod.fst := rfl
      rw [this, List.enum_map_fst]

theorem ingest_error_and_success_behaviour_witness :
    ingest_source_document_to_rag ⟨[], []⟩ (fun _ => none) 7
      = (⟨[], []⟩, Except.error (IngestError.notFound 7)) :=
  (ingest_error_and_success_behaviour ⟨[], []⟩ (fun _ => none) 7).1 (by rfl)

/-- C9: when extraction fails for an existing source document, the
previously persisted chunks are left untouched (the delete happens only
after successful extraction); only the indexing status changes, and the
error is propagated. -/
theorem ingest_failure_preserves_chunks (db : RagDB) (fs : String → Option String)
    (source_document_id : Nat) (source : SourceDocument)
    (hfind : db.sources.find? (fun s => s.id == source_document_id) = some source)
    (hext : fs source.storage_path = none) :
    (ingest_source_document_to_rag db fs source_document_id).1.chunks = db.chunks
    ∧ (ingest_source_document_to_rag db fs source_document_id).2
        = Except.error (IngestError.extraction source.storage_path)
    ∧ (ingest_source_document_to_rag db fs source_document_id).1.sources
        = db.sources.map (fun s =>
            if s.id == source_document_id then { s with index_status := "error" }
            else s) := by
  have e1 : ingest_source_document_to_rag db fs source_document_id
      = ingestWithSource db fs source_document_id source := by
    unfold ingest_source_document_to_rag
    rw [hfind]
  rw [e1]
  unfold ingestWithSource
  rw [hext]
  exact ⟨rfl, rfl, rfl⟩

theorem ingest_failure_preserves_chunks_witness :
    (ingest_source_document_to_rag
      ⟨[⟨1, 1, "protocol", "p.txt", "en", "indexed"⟩],
       [⟨1, some 1, "protocol", 0, "old chunk"⟩]⟩
      (fun _ => none) 1).1.chunks
      = [⟨1, some 1, "protocol", 0, "old chunk"⟩] :=
  (ingest_failure_preserves_chunks
    ⟨[⟨1, 1, "protocol", "p.txt", "en", "indexed"⟩],
     [⟨1, some 1, "protocol", 0, "old chunk"⟩]⟩
    (fun _ => none) 1 ⟨1, 1, "protocol", "p.txt", "en", "indexed"⟩
    (by rfl) (by rfl)).1

end Clindoc
